import Mathlib

/-!
Formal model of the Outfnd product-image selection pipeline.

The definitions below are shallow embeddings of the TypeScript/JavaScript
sources of the repository:

* `functions/lib/vision.js` — perceptual-hash comparator (`hamming`,
  `minDistanceToAnchors`);
* `apps/extension/src/content/imageFilter.ts` — URL normalization for
  deduplication (`normalizeForDedupe`), heuristic scoring
  (`scoreImageCandidate`), and deduplication (`finalizeImageCandidates`);
* `apps/extension/src/content/imageCluster.ts` — product-key extraction
  (`extractProductKeyFromUrl`) and primary-cluster selection
  (`selectPrimaryProductImages`);
* the server-side bucket partitioner `opSelectProductImages`.

JavaScript numbers are modelled as exact rationals (ℚ); all arithmetic the
claims depend on stays inside small integer ranges where IEEE-754 doubles
are exact.  Network fetches and the external LLM call are modelled as
explicit oracle parameters.
-/

namespace Outfnd

/-! ## Basic character and string utilities -/

/-- Decide whether a character is an ASCII decimal digit. -/
def isDigitChar (c : Char) : Bool :=
  decide (48 ≤ c.toNat ∧ c.toNat ≤ 57)

/-- Decide whether a pattern is a prefix of a character list. -/
def startsWithChars : List Char → List Char → Bool
  | _, [] => true
  | [], _ :: _ => false
  | c :: cs, p :: ps => c == p && startsWithChars cs ps

/-- Decide whether a pattern occurs as a contiguous substring of a
character list (model of JavaScript `String.prototype.includes` and of
regular-expression literals that are plain alternations of fixed words). -/
def containsSub : List Char → List Char → Bool
  | hay, pat =>
    match hay with
    | [] => startsWithChars [] pat
    | _ :: rest => startsWithChars hay pat || containsSub rest pat

/-- Lower-case one character the way `String.prototype.toLowerCase`
acts on ASCII text (the only characters the pipeline's patterns test). -/
def lowerChar (c : Char) : Char :=
  if 65 ≤ c.toNat ∧ c.toNat ≤ 90 then Char.ofNat (c.toNat + 32) else c

/-- Lower-case a character list. -/
def lowerChars (l : List Char) : List Char := l.map lowerChar

/-- First-occurrence deduplication, the iteration order of a freshly
populated JavaScript `Set`. -/
def dedupFirst (l : List String) : List String :=
  (l.foldl (fun acc u => if u ∈ acc then acc else acc ++ [u]) [])

/-! ## vision.js — perceptual hash comparator -/

/-- Value of one hexadecimal digit, if any. -/
def hexDigitVal (c : Char) : Option Nat :=
  let n := c.toNat
  if 48 ≤ n ∧ n ≤ 57 then some (n - 48)
  else if 97 ≤ n ∧ n ≤ 102 then some (n - 87)
  else if 65 ≤ n ∧ n ≤ 70 then some (n - 55)
  else none

/-- Accumulating hexadecimal parse. -/
def hexAccum (acc : Nat) : List Char → Option Nat
  | [] => some acc
  | c :: cs =>
    match hexDigitVal c with
    | some v => hexAccum (16 * acc + v) cs
    | none => none

/-- Model of `BigInt("0x" ++ s)`: the numeric value of a hex string, or
`none` where the JavaScript conversion would throw (empty or non-hex). -/
def hexToNat? (s : String) : Option Nat :=
  match s.data with
  | [] => none
  | l => hexAccum 0 l

/-- Model of the bit-clearing popcount loop in `hamming` (vision.js):
`while (x) { x &= x - 1n; count++; }`. -/
def popcountLoop (x : Nat) : Nat :=
  if _ : x = 0 then 0
  else 1 + popcountLoop (x &&& (x - 1))
termination_by x
decreasing_by
  rename_i hx
  have hle : x &&& (x - 1) ≤ x - 1 := Nat.and_le_right
  omega

theorem popcountLoop_zero : popcountLoop 0 = 0 := by
  rw [popcountLoop]
  simp

/-- Hamming distance between two already-parsed 64-bit hash values:
popcount of their XOR, exactly as `hamming` computes it. -/
def hammingNat (a b : Nat) : Nat := popcountLoop (a ^^^ b)

/-- `hamming(hexA, hexB)` from vision.js: parse both hex strings, XOR,
popcount; `none` models the exception on unparsable input. -/
def hamming (hexA hexB : String) : Option Nat :=
  match hexToNat? hexA, hexToNat? hexB with
  | some a, some b => some (hammingNat a b)
  | _, _ => none

/-- `minDistanceToAnchors(d, anchors)` from vision.js over parsed hashes:
64 for an empty anchor list, otherwise `Math.min` over the per-anchor
hamming distances (spread evaluates as a left fold). -/
def minDistanceToAnchors (d : Nat) (anchors : List Nat) : Nat :=
  match anchors with
  | [] => 64
  | a :: rest => rest.foldl (fun acc x => Nat.min acc (hammingNat d x)) (hammingNat d a)

/-! ## Claim C8 — hamming symmetry -/

/-- C8: for all 64-bit dHash hex strings a and b (any strings the
comparator can parse), `hamming(a, b) = hamming(b, a)` and
`hamming(a, a) = 0`. -/
theorem hamming_symm_and_self_zero (a b : String) (x y : Nat)
    (ha : hexToNat? a = some x) (hb : hexToNat? b = some y) :
    hamming a b = hamming b a ∧ hamming a a = some 0 := by
  refine ⟨?_, ?_⟩
  · simp only [hamming, ha, hb, hammingNat, Nat.xor_comm]
  · simp only [hamming, ha, hammingNat, Nat.xor_self, popcountLoop_zero]

/-- Concrete instantiation of C8 on two 64-bit dHash hex strings. -/
theorem hamming_symm_and_self_zero_witness :
    hamming ("00ff00ff00ff00ff") ("0123456789abcdef") =
      hamming ("0123456789abcdef") ("00ff00ff00ff00ff") ∧
    hamming ("00ff00ff00ff00ff") ("00ff00ff00ff00ff") = some 0 :=
  hamming_symm_and_self_zero ("00ff00ff00ff00ff") ("0123456789abcdef")
    71777214294589695 81985529216486895 (by decide) (by decide)

/-! ## Minimum-distance facts used by claim C10 -/

theorem foldl_min_eq_or (f : Nat → Nat) (l : List Nat) (init : Nat) :
    l.foldl (fun acc x => Nat.min acc (f x)) init = init ∨
      ∃ x ∈ l, l.foldl (fun acc x => Nat.min acc (f x)) init = f x := by
  induction l generalizing init with
  | nil => exact Or.inl rfl
  | cons y ys ih =>
    simp only [List.foldl_cons]
    rcases ih (Nat.min init (f y)) with h | ⟨x, hx, hfx⟩
    · by_cases hcase : init ≤ f y
      · have hm : Nat.min init (f y) = init := Nat.min_eq_left hcase
        rw [hm] at h ⊢
        exact Or.inl h
      · have hm : Nat.min init (f y) = f y := Nat.min_eq_right (Nat.le_of_not_le hcase)
        rw [hm] at h ⊢
        exact Or.inr ⟨y, by simp, h⟩
    · exact Or.inr ⟨x, by simp [hx], hfx⟩

theorem foldl_min_le (f : Nat → Nat) (l : List Nat) (init : Nat) :
    l.foldl (fun acc x => Nat.min acc (f x)) init ≤ init ∧
      ∀ x ∈ l, l.foldl (fun acc x => Nat.min acc (f x)) init ≤ f x := by
  induction l generalizing init with
  | nil => exact ⟨Nat.le_refl _, by simp⟩
  | cons y ys ih =>
    obtain ⟨h1, h2⟩ := ih (Nat.min init (f y))
    refine ⟨Nat.le_trans h1 (Nat.min_le_left _ _), ?_⟩
    intro x hx
    rcases List.mem_cons.mp hx with rfl | hmem
    · exact Nat.le_trans h1 (Nat.min_le_right _ _)
    · exact h2 x hmem

/-! ## URL model

A structural model of the WHATWG `URL` object as the pipeline uses it:
scheme, authority, pathname, search parameters (ordered key/value pairs)
and fragment.  Percent-encoding and host case-folding are not modelled;
none of the claims depend on them. `parseUrlChars` returns `none` where
`new URL(u)` would throw (no absolute `scheme://` shape). -/

/-- Split a character list at the first character satisfying `p`,
returning the prefix and, if found, the delimiter with the remainder. -/
def splitAtFirst (p : Char → Bool) : List Char → List Char × Option (Char × List Char)
  | [] => ([], none)
  | c :: cs =>
    if p c then ([], some (c, cs))
    else
      let r := splitAtFirst p cs
      (c :: r.1, r.2)

/-- Split a character list on every occurrence of a delimiter. -/
def splitOnChar (d : Char) : List Char → List (List Char)
  | [] => [[]]
  | c :: cs =>
    let r := splitOnChar d cs
    if c == d then [] :: r
    else
      match r with
      | [] => [[c]]
      | piece :: rest => (c :: piece) :: rest

/-- Characters allowed in a URL scheme. -/
def isSchemeChar (c : Char) : Bool :=
  decide ((97 ≤ c.toNat ∧ c.toNat ≤ 122) ∨ (65 ≤ c.toNat ∧ c.toNat ≤ 90) ∨
    (48 ≤ c.toNat ∧ c.toNat ≤ 57) ∨ c = '+' ∨ c = '-' ∨ c = '.')

/-- Structured form of an absolute URL. -/
structure UrlModel where
  scheme : List Char
  host : List Char
  path : List Char
  query : List (List Char × List Char)
  frag : List Char
deriving DecidableEq, Repr

/-- Parse the text after `?` (up to `#`) as ordered search parameters:
split on `&`, drop empty pieces, split each piece at its first `=`. -/
def parseParams (l : List Char) : List (List Char × List Char) :=
  ((splitOnChar '&' l).filter (fun piece => !piece.isEmpty)).map (fun piece =>
    match splitAtFirst (fun c => c == '=') piece with
    | (k, none) => (k, [])
    | (k, some (_, v)) => (k, v))

/-- Stop characters that end the authority component. -/
def isHostStop (c : Char) : Bool := c == '/' || c == '?' || c == '#'

/-- Stop characters that end the pathname. -/
def isPathStop (c : Char) : Bool := c == '?' || c == '#'

/-- Parse the part following the authority into path, query and fragment. -/
def parseAfterHost (rest : Option (Char × List Char)) :
    List Char × List (List Char × List Char) × List Char :=
  match rest with
  | none => (['/'], [], [])
  | some ('/', r) =>
    let pr := splitAtFirst isPathStop r
    match pr.2 with
    | none => ('/' :: pr.1, [], [])
    | some ('?', r2) =>
      let qr := splitAtFirst (fun c => c == '#') r2
      ('/' :: pr.1, parseParams qr.1,
        match qr.2 with
        | some (_, f) => f
        | none => [])
    | some (_, r2) => ('/' :: pr.1, [], r2)
  | some ('?', r) =>
    let qr := splitAtFirst (fun c => c == '#') r
    (['/'], parseParams qr.1,
      match qr.2 with
      | some (_, f) => f
      | none => [])
  | some (_, r) => (['/'], [], r)

/-- Parse an absolute URL, or `none` where `new URL` would throw. -/
def parseUrlChars (l : List Char) : Option UrlModel :=
  let sr := splitAtFirst (fun c => c == ':') l
  match sr.2 with
  | none => none
  | some (_, rest1) =>
    if sr.1.isEmpty || !(sr.1.all isSchemeChar) then none
    else
      match rest1 with
      | '/' :: '/' :: rest2 =>
        let hr := splitAtFirst isHostStop rest2
        let pqf := parseAfterHost hr.2
        some ⟨sr.1, hr.1, pqf.1, pqf.2.1, pqf.2.2⟩
      | _ => none

/-- `URLSearchParams.prototype.set`: replace the value at the first
occurrence of the key, delete any later occurrences, or append. -/
def setParam : List (List Char × List Char) → List Char → List Char →
    List (List Char × List Char)
  | [], k, v => [(k, v)]
  | (k0, v0) :: rest, k, v =>
    if k0 == k then (k, v) :: rest.filter (fun kv => !(kv.1 == k))
    else (k0, v0) :: setParam rest k v

/-- `URLSearchParams.prototype.toString` without percent-encoding:
the `k=v` pairs joined by `&`. -/
def serializeParams : List (List Char × List Char) → List Char
  | [] => []
  | [kv] => kv.1 ++ '=' :: kv.2
  | kv :: kv2 :: rest => kv.1 ++ '=' :: kv.2 ++ '&' :: serializeParams (kv2 :: rest)

/-- Serialize a `UrlModel` back to text (`URL.prototype.toString`). -/
def serializeUrl (m : UrlModel) : List Char :=
  m.scheme ++ ':' :: '/' :: '/' :: m.host ++ m.path ++
    (if m.query.isEmpty then [] else '?' :: serializeParams m.query) ++
    (if m.frag.isEmpty then [] else '#' :: m.frag)

/-! ## imageFilter.ts — normalizeForDedupe -/

/-- The volatile resizing/quality parameter names dropped by
`normalizeForDedupe`. -/
def dropParamNames : List (List Char) :=
  [['w'], ['h'], ['w','i','d','t','h'], ['h','e','i','g','h','t'], ['q'],
   ['q','u','a','l','i','t','y'], ['a','u','t','o'], ['f','i','t'],
   ['c','r','o','p'], ['f','o','r','m','a','t'], ['f','m'], ['b','g'],
   ['d','p','r'], ['i','m','w','i','d','t','h'], ['w','i','d'],
   ['h','e','i'], ['r','e','s','m','o','d','e'], ['r','e','s'],
   ['s','i','z','e']]

/-- The query-parameter rebuild loop of `normalizeForDedupe`:
`url.searchParams.forEach((v, k) => { if (!drop.has(k.toLowerCase())) next.set(k, v); })`. -/
def normalizeParams (ps : List (List Char × List Char)) :
    List (List Char × List Char) :=
  ps.foldl (fun acc kv =>
    if dropParamNames.any (fun d => d == lowerChars kv.1) then acc
    else setParam acc kv.1 kv.2) []

/-- `normalizeForDedupe` from imageFilter.ts: parse the URL, drop the
volatile parameters, clear the fragment, re-serialize; return the input
unchanged when parsing throws. -/
def normalizeForDedupe (u : String) : String :=
  match parseUrlChars u.data with
  | none => u
  | some m =>
    String.mk (serializeUrl { m with query := normalizeParams m.query, frag := [] })

/-! ## Splitting lemmas for the URL round trip -/

theorem splitAtFirst_no (p : Char → Bool) (l : List Char)
    (h : ∀ c ∈ l, p c = false) : splitAtFirst p l = (l, none) := by
  induction l with
  | nil => rfl
  | cons c cs ih =>
    have hc : p c = false := h c (by simp)
    simp only [splitAtFirst, hc, Bool.false_eq_true, if_false]
    rw [ih (fun c hc => h c (by simp [hc]))]

theorem splitAtFirst_append (p : Char → Bool) (a : List Char) (d : Char)
    (b : List Char) (ha : ∀ c ∈ a, p c = false) (hd : p d = true) :
    splitAtFirst p (a ++ d :: b) = (a, some (d, b)) := by
  induction a with
  | nil => simp [splitAtFirst, hd]
  | cons c cs ih =>
    have hc : p c = false := ha c (by simp)
    simp only [List.cons_append, splitAtFirst, hc, Bool.false_eq_true, if_false,
      List.append_eq]
    rw [ih (fun c hc => ha c (by simp [hc]))]

theorem splitAtFirst_fst (p : Char → Bool) (l : List Char) :
    ∀ c ∈ (splitAtFirst p l).1, c ∈ l ∧ p c = false := by
  induction l with
  | nil => simp [splitAtFirst]
  | cons c cs ih =>
    by_cases hc : p c
    · simp [splitAtFirst, hc]
    · simp only [splitAtFirst, hc, if_false]
      intro x hx
      rcases List.mem_cons.mp hx with rfl | hx2
      · exact ⟨by simp, Bool.eq_false_iff.mpr hc⟩
      · obtain ⟨h1, h2⟩ := ih x hx2
        exact ⟨by simp [h1], h2⟩

theorem splitAtFirst_snd (p : Char → Bool) (l : List Char) (d : Char)
    (r : List Char) (h : (splitAtFirst p l).2 = some (d, r)) :
    d ∈ l ∧ p d = true ∧ ∀ c ∈ r, c ∈ l := by
  induction l with
  | nil => simp [splitAtFirst] at h
  | cons c cs ih =>
    by_cases hc : p c
    · simp only [splitAtFirst, hc, if_true, Option.some.injEq, Prod.mk.injEq] at h
      obtain ⟨rfl, rfl⟩ := h
      exact ⟨by simp, hc, fun x hx => by simp [hx]⟩
    · simp only [splitAtFirst, hc, if_false] at h
      obtain ⟨h1, h2, h3⟩ := ih h
      exact ⟨by simp [h1], h2, fun x hx => by simp [h3 x hx]⟩

theorem splitOnChar_ne_nil (d : Char) (l : List Char) : splitOnChar d l ≠ [] := by
  cases l with
  | nil => simp [splitOnChar]
  | cons c cs =>
    simp only [splitOnChar]
    by_cases hc : (c == d) = true
    · simp [hc]
    · simp only [hc, if_false]
      cases h : splitOnChar d cs <;> simp

theorem splitOnChar_no (d : Char) (l : List Char)
    (h : ∀ c ∈ l, (c == d) = false) : splitOnChar d l = [l] := by
  induction l with
  | nil => rfl
  | cons c cs ih =>
    have hc : (c == d) = false := h c (by simp)
    simp only [splitOnChar, hc, Bool.false_eq_true, if_false]
    rw [ih (fun c hc => h c (by simp [hc]))]

theorem splitOnChar_append (d : Char) (a b : List Char)
    (ha : ∀ c ∈ a, (c == d) = false) :
    splitOnChar d (a ++ d :: b) = a :: splitOnChar d b := by
  induction a with
  | nil => simp [splitOnChar]
  | cons c cs ih =>
    have hc : (c == d) = false := ha c (by simp)
    simp only [List.cons_append, splitOnChar, hc, Bool.false_eq_true, if_false,
      List.append_eq]
    rw [ih (fun c hc => ha c (by simp [hc]))]

theorem splitOnChar_mem (d : Char) (l : List Char) :
    ∀ piece ∈ splitOnChar d l, ∀ c ∈ piece, c ∈ l ∧ (c == d) = false := by
  induction l with
  | nil =>
    intro piece hp
    simp only [splitOnChar, List.mem_singleton] at hp
    subst hp
    simp
  | cons c cs ih =>
    intro piece hp
    simp only [splitOnChar] at hp
    by_cases hc : (c == d) = true
    · rw [if_pos hc] at hp
      rcases List.mem_cons.mp hp with hempty | hp2
      · subst hempty
        simp
      · intro x hx
        obtain ⟨h1, h2⟩ := ih piece hp2 x hx
        exact ⟨by simp [h1], h2⟩
    · rw [if_neg hc] at hp
      cases hsp : splitOnChar d cs with
      | nil => exact absurd hsp (splitOnChar_ne_nil d _)
      | cons p r =>
        rw [hsp] at hp
        rcases List.mem_cons.mp hp with heq | hp2
        · subst heq
          intro x hx
          rcases List.mem_cons.mp hx with heq2 | hx2
          · subst heq2
            exact ⟨by simp, Bool.eq_false_iff.mpr hc⟩
          · obtain ⟨h1, h2⟩ := ih p (by simp [hsp]) x hx2
            exact ⟨by simp [h1], h2⟩
        · intro x hx
          obtain ⟨h1, h2⟩ := ih piece (by rw [hsp]; simp [hp2]) x hx
          exact ⟨by simp [h1], h2⟩

/-! ## Round trip for search parameters -/

/-- Wellformedness of one search parameter as produced by parsing. -/
def ParamWF (kv : List Char × List Char) : Prop :=
  (∀ c ∈ kv.1, (c == '&') = false ∧ (c == '=') = false ∧ (c == '#') = false) ∧
    (∀ c ∈ kv.2, (c == '&') = false ∧ (c == '#') = false)

theorem serializeParams_mem (ps : List (List Char × List Char)) :
    ∀ c ∈ serializeParams ps,
      c = '&' ∨ c = '=' ∨ ∃ kv ∈ ps, c ∈ kv.1 ∨ c ∈ kv.2 := by
  induction ps with
  | nil => simp [serializeParams]
  | cons kv rest ih =>
    cases rest with
    | nil =>
      intro c hc
      simp only [serializeParams, List.mem_append, List.mem_cons] at hc
      rcases hc with h1 | h2 | h3
      · exact Or.inr (Or.inr ⟨kv, by simp, Or.inl h1⟩)
      · exact Or.inr (Or.inl h2)
      · exact Or.inr (Or.inr ⟨kv, by simp, Or.inr h3⟩)
    | cons kv2 rest2 =>
      intro c hc
      have hsplit : c = '&' ∨ c = '=' ∨ c ∈ kv.1 ∨ c ∈ kv.2 ∨
          c ∈ serializeParams (kv2 :: rest2) := by
        simp only [serializeParams, List.mem_append, List.mem_cons] at hc
        tauto
      rcases hsplit with h1 | h2 | h3 | h4 | h5
      · exact Or.inl h1
      · exact Or.inr (Or.inl h2)
      · exact Or.inr (Or.inr ⟨kv, by simp, Or.inl h3⟩)
      · exact Or.inr (Or.inr ⟨kv, by simp, Or.inr h4⟩)
      · rcases ih c h5 with h | h | ⟨kv0, hkv0, h⟩
        · exact Or.inl h
        · exact Or.inr (Or.inl h)
        · exact Or.inr (Or.inr ⟨kv0, by simp [List.mem_cons] at hkv0 ⊢; tauto, h⟩)

theorem serializeParam_single_no_amp (kv : List Char × List Char)
    (hwf : ParamWF kv) : ∀ c ∈ kv.1 ++ '=' :: kv.2, (c == '&') = false := by
  intro c hc
  simp only [List.mem_append, List.mem_cons] at hc
  rcases hc with h1 | h2 | h3
  · exact (hwf.1 c h1).1
  · subst h2
    decide
  · exact (hwf.2 c h3).1

theorem parseParams_serialize (ps : List (List Char × List Char))
    (h : ∀ kv ∈ ps, ParamWF kv) :
    parseParams (serializeParams ps) = ps := by
  induction ps with
  | nil => rfl
  | cons kv rest ih =>
    have hkv : ParamWF kv := h kv (by simp)
    have hkey : ∀ c ∈ kv.1, (fun c => c == '=') c = false :=
      fun c hc => (hkv.1 c hc).2.1
    cases rest with
    | nil =>
      simp only [serializeParams]
      unfold parseParams
      rw [splitOnChar_no '&' _ (serializeParam_single_no_amp kv hkv)]
      have hne : (kv.1 ++ '=' :: kv.2).isEmpty = false := by
        cases hk : kv.1 <;> simp [hk, List.isEmpty]
      simp only [List.filter, hne, Bool.not_false, List.filter_nil]
      rw [List.map_singleton, splitAtFirst_append (fun c => c == '=') kv.1 '=' kv.2
        hkey (by decide)]
    | cons kv2 rest2 =>
      simp only [serializeParams]
      unfold parseParams
      have hshape : kv.1 ++ '=' :: kv.2 ++ '&' :: serializeParams (kv2 :: rest2) =
          (kv.1 ++ '=' :: kv.2) ++ '&' :: serializeParams (kv2 :: rest2) := by
        simp
      rw [hshape, splitOnChar_append '&' _ _ (serializeParam_single_no_amp kv hkv)]
      have hne : (kv.1 ++ '=' :: kv.2).isEmpty = false := by
        cases hk : kv.1 <;> simp [hk, List.isEmpty]
      simp only [List.filter, hne, Bool.not_false]
      rw [List.map_cons, splitAtFirst_append (fun c => c == '=') kv.1 '=' kv.2
        hkey (by decide)]
      have ihres := ih (fun kv0 hkv0 => h kv0 (by simp [List.mem_cons] at hkv0 ⊢; tauto))
      unfold parseParams at ihres
      rw [ihres]

/-! ## Wellformedness of parsed URLs and the serialize/parse round trip -/

/-- Facts guaranteed for every successfully parsed URL; exactly what the
re-serialization round trip needs. -/
structure UrlWF (m : UrlModel) : Prop where
  scheme_ne : m.scheme.isEmpty = false
  scheme_ok : m.scheme.all isSchemeChar = true
  host_ok : ∀ c ∈ m.host, isHostStop c = false
  path_ok : ∃ body, m.path = '/' :: body ∧ ∀ c ∈ body, isPathStop c = false
  query_ok : ∀ kv ∈ m.query, ParamWF kv

theorem parseParams_wf (l : List Char) (hl : ∀ c ∈ l, (c == '#') = false) :
    ∀ kv ∈ parseParams l, ParamWF kv := by
  intro kv hkv
  unfold parseParams at hkv
  obtain ⟨piece, hpiece, hkveq⟩ := List.mem_map.mp hkv
  have hpiece2 : piece ∈ splitOnChar '&' l := (List.mem_filter.mp hpiece).1
  have hmem := splitOnChar_mem '&' l piece hpiece2
  cases hsp : splitAtFirst (fun c => c == '=') piece with
  | mk k rest =>
    have hkfacts := splitAtFirst_fst (fun c => c == '=') piece
    rw [hsp] at hkfacts
    cases rest with
    | none =>
      rw [hsp] at hkveq
      simp only at hkveq
      subst hkveq
      refine ⟨?_, by simp⟩
      intro c hc
      obtain ⟨hcp, hceq⟩ := hkfacts c hc
      obtain ⟨hcl, hcamp⟩ := hmem c hcp
      exact ⟨hcamp, hceq, hl c hcl⟩
    | some dr =>
      cases dr with
      | mk dd vv =>
        have hvfacts := splitAtFirst_snd (fun c => c == '=') piece dd vv
          (by rw [hsp])
        rw [hsp] at hkveq
        simp only at hkveq
        subst hkveq
        constructor
        · intro c hc
          obtain ⟨hcp, hceq⟩ := hkfacts c hc
          obtain ⟨hcl, hcamp⟩ := hmem c hcp
          exact ⟨hcamp, hceq, hl c hcl⟩
        · intro c hc
          have hcp : c ∈ piece := hvfacts.2.2 c hc
          obtain ⟨hcl, hcamp⟩ := hmem c hcp
          exact ⟨hcamp, hl c hcl⟩

theorem parseAfterHost_wf (r : Option (Char × List Char)) :
    (∃ body, (parseAfterHost r).1 = '/' :: body ∧
      ∀ c ∈ body, isPathStop c = false) ∧
    (∀ kv ∈ (parseAfterHost r).2.1, ParamWF kv) := by
  unfold parseAfterHost
  split
  · exact ⟨⟨[], rfl, by simp⟩, by simp⟩
  · rename_i rr
    cases hpr : splitAtFirst isPathStop rr with
    | mk pbody prest =>
      have hpb := splitAtFirst_fst isPathStop rr
      rw [hpr] at hpb
      simp only
      cases prest with
      | none => exact ⟨⟨pbody, rfl, fun c hc => (hpb c hc).2⟩, by simp⟩
      | some dr =>
        cases dr with
        | mk dd rest2 =>
          split
          · rename_i heq
            exact absurd heq (by simp)
          · rename_i x r2 heq
            injection heq with h2
            injection h2 with hd hr
            subst hd
            subst hr
            cases hqr : splitAtFirst (fun c => c == '#') rest2 with
            | mk qpart qrest =>
              have hq := splitAtFirst_fst (fun c => c == '#') rest2
              rw [hqr] at hq
              refine ⟨⟨pbody, rfl, fun c hc => (hpb c hc).2⟩, ?_⟩
              exact parseParams_wf qpart (fun c hc => (hq c hc).2)
          · exact ⟨⟨pbody, rfl, fun c hc => (hpb c hc).2⟩, by simp⟩
  · rename_i rr
    cases hqr : splitAtFirst (fun c => c == '#') rr with
    | mk qpart qrest =>
      have hq := splitAtFirst_fst (fun c => c == '#') rr
      rw [hqr] at hq
      refine ⟨⟨[], rfl, by simp⟩, ?_⟩
      exact parseParams_wf qpart (fun c hc => (hq c hc).2)
  · exact ⟨⟨[], rfl, by simp⟩, by simp⟩

theorem parse_wf (l : List Char) (m : UrlModel)
    (h : parseUrlChars l = some m) : UrlWF m := by
  unfold parseUrlChars at h
  cases hsr : splitAtFirst (fun c => c == ':') l with
  | mk scheme rest =>
    rw [hsr] at h
    simp only at h
    cases rest with
    | none => exact absurd h (by simp)
    | some dr =>
      cases dr with
      | mk dd rest1 =>
        simp only at h
        by_cases hguard : scheme.isEmpty = true ∨ (scheme.all isSchemeChar) = false
        · rw [if_pos (by rcases hguard with h1 | h1 <;> simp [h1])] at h
          exact absurd h (by simp)
        · push_neg at hguard
          have hne : scheme.isEmpty = false := by
            rcases hguard with ⟨h1, _⟩
            exact Bool.eq_false_iff.mpr h1
          have hall : scheme.all isSchemeChar = true := by
            rcases hguard with ⟨_, h2⟩
            cases hv : scheme.all isSchemeChar
            · exact absurd hv h2
            · rfl
          rw [if_neg (by simp [hne, hall])] at h
          split at h
          · rename_i rest2
            cases hhr : splitAtFirst isHostStop rest2 with
            | mk host hrest =>
              rw [hhr] at h
              simp only [Option.some.injEq] at h
              subst h
              have hhost := splitAtFirst_fst isHostStop rest2
              rw [hhr] at hhost
              obtain ⟨hpath, hquery⟩ := parseAfterHost_wf hrest
              exact ⟨hne, hall, fun c hc => (hhost c hc).2, hpath, hquery⟩
          · exact absurd h (by simp)

theorem schemeChar_ne_colon (c : Char) (h : isSchemeChar c = true) :
    (fun c => c == ':') c = false := by
  by_cases hc : c = ':'
  · subst hc
    exact absurd h (by decide)
  · simp [hc]

theorem serializeParams_no_hash (ps : List (List Char × List Char))
    (h : ∀ kv ∈ ps, ParamWF kv) :
    ∀ c ∈ serializeParams ps, (fun c => c == '#') c = false := by
  intro c hc
  rcases serializeParams_mem ps c hc with rfl | rfl | ⟨kv, hkv, hmem⟩
  · decide
  · decide
  · rcases hmem with h1 | h2
    · exact ((h kv hkv).1 c h1).2.2
    · exact ((h kv hkv).2 c h2).2

theorem parseAfterHost_reduce (r : List Char) :
    parseAfterHost (some ('/', r)) =
      (match (splitAtFirst isPathStop r).2 with
       | none => ('/' :: (splitAtFirst isPathStop r).1, [], [])
       | some ('?', r2) =>
         ('/' :: (splitAtFirst isPathStop r).1,
           parseParams (splitAtFirst (fun c => c == '#') r2).1,
           match (splitAtFirst (fun c => c == '#') r2).2 with
           | some (_, f) => f
           | none => [])
       | some (_, r2) => ('/' :: (splitAtFirst isPathStop r).1, [], r2)) := rfl

theorem parseAfterHost_no_query (body : List Char)
    (hbody : ∀ c ∈ body, isPathStop c = false) :
    parseAfterHost (some ('/', body)) = ('/' :: body, [], []) := by
  rw [parseAfterHost_reduce, splitAtFirst_no isPathStop body hbody]

theorem parseAfterHost_with_query (body q : List Char)
    (hbody : ∀ c ∈ body, isPathStop c = false)
    (hqhash : ∀ c ∈ q, (fun c => c == '#') c = false) :
    parseAfterHost (some ('/', body ++ '?' :: q)) =
      ('/' :: body, parseParams q, []) := by
  rw [parseAfterHost_reduce, splitAtFirst_append isPathStop body '?' q hbody
    (by decide)]
  simp only
  rw [splitAtFirst_no (fun c => c == '#') q hqhash]

/-- Serialization followed by parsing is the identity on wellformed URL
models with an empty fragment. -/
theorem parse_serialize (m : UrlModel) (hwf : UrlWF m) (hfrag : m.frag = []) :
    parseUrlChars (serializeUrl m) = some m := by
  obtain ⟨body, hpath, hbody⟩ := hwf.path_ok
  have hschemecolon : ∀ c ∈ m.scheme, (fun c => c == ':') c = false := by
    intro c hc
    exact schemeChar_ne_colon c (by
      have := hwf.scheme_ok
      rw [List.all_eq_true] at this
      exact this c hc)
  cases m with
  | mk scheme host path query frag =>
    simp only at hpath hfrag ⊢
    subst hpath
    subst hfrag
    by_cases hq : query = []
    · subst hq
      have hser : serializeUrl ⟨scheme, host, '/' :: body, [], []⟩ =
          scheme ++ ':' :: '/' :: '/' :: (host ++ '/' :: body) := by
        simp [serializeUrl]
      rw [hser]
      unfold parseUrlChars
      rw [splitAtFirst_append (fun c => c == ':') scheme ':'
        ('/' :: '/' :: (host ++ '/' :: body)) hschemecolon (by decide)]
      simp only [hwf.scheme_ne, hwf.scheme_ok, Bool.not_true, Bool.or_false,
        Bool.false_eq_true, if_false]
      rw [splitAtFirst_append isHostStop host '/' body
        (fun c hc => hwf.host_ok c hc) (by decide)]
      simp only [parseAfterHost_no_query body hbody]
    · have hser : serializeUrl ⟨scheme, host, '/' :: body, query, []⟩ =
          scheme ++ ':' :: '/' :: '/' ::
            (host ++ '/' :: (body ++ '?' :: serializeParams query)) := by
        simp [serializeUrl, hq]
      rw [hser]
      unfold parseUrlChars
      rw [splitAtFirst_append (fun c => c == ':') scheme ':'
        ('/' :: '/' :: (host ++ '/' :: (body ++ '?' :: serializeParams query)))
        hschemecolon (by decide)]
      simp only [hwf.scheme_ne, hwf.scheme_ok, Bool.not_true, Bool.or_false,
        Bool.false_eq_true, if_false]
      rw [splitAtFirst_append isHostStop host '/'
        (body ++ '?' :: serializeParams query)
        (fun c hc => hwf.host_ok c hc) (by decide)]
      simp only [parseAfterHost_with_query body (serializeParams query) hbody
        (serializeParams_no_hash query hwf.query_ok)]
      rw [parseParams_serialize query hwf.query_ok]

/-! ## normalizeParams is a projection (claim C7 infrastructure) -/

/-- Keys are pairwise distinct, as `URLSearchParams.set` guarantees. -/
def NodupKeys (l : List (List Char × List Char)) : Prop :=
  l.Pairwise (fun a b => a.1 ≠ b.1)

theorem mem_setParam (l : List (List Char × List Char)) (k v : List Char) :
    ∀ kv ∈ setParam l k v, kv = (k, v) ∨ kv ∈ l := by
  induction l with
  | nil => simp [setParam]
  | cons kv0 rest ih =>
    intro kv hkv
    cases hkv0 : kv0 with
    | mk k0 v0 =>
      rw [hkv0] at hkv
      simp only [setParam] at hkv
      by_cases hk : (k0 == k) = true
      · rw [if_pos hk] at hkv
        rcases List.mem_cons.mp hkv with rfl | hmem
        · exact Or.inl rfl
        · exact Or.inr (by simp [List.mem_filter.mp hmem |>.1])
      · rw [if_neg hk] at hkv
        rcases List.mem_cons.mp hkv with rfl | hmem
        · exact Or.inr (by simp [hkv0])
        · rcases ih kv hmem with h | h
          · exact Or.inl h
          · exact Or.inr (by simp [h])

theorem setParam_append (l : List (List Char × List Char)) (k v : List Char)
    (h : ∀ kv ∈ l, (kv.1 == k) = false) : setParam l k v = l ++ [(k, v)] := by
  induction l with
  | nil => rfl
  | cons kv0 rest ih =>
    cases kv0 with
    | mk k0 v0 =>
      have hk : (k0 == k) = false := h (k0, v0) (by simp)
      simp only [setParam, hk, Bool.false_eq_true, if_false, List.cons_append]
      rw [ih (fun kv hkv => h kv (by simp [hkv]))]

theorem setParam_nodup (l : List (List Char × List Char)) (k v : List Char)
    (h : NodupKeys l) : NodupKeys (setParam l k v) := by
  induction l with
  | nil => simp [setParam, NodupKeys]
  | cons kv0 rest ih =>
    cases kv0 with
    | mk k0 v0 =>
      simp only [setParam]
      by_cases hk : (k0 == k) = true
      · rw [if_pos hk]
        constructor
        · intro b hb
          have hbk : (b.1 == k) = false := by
            have := List.mem_filter.mp hb |>.2
            simpa using this
          simp only
          intro heq
          rw [heq] at hbk
          simp at hbk
        · exact List.Pairwise.filter _ (List.Pairwise.of_cons h)
      · rw [if_neg hk]
        constructor
        · intro b hb
          rcases mem_setParam rest k v b hb with rfl | hmem
          · simpa using hk
          · exact (List.pairwise_cons.mp h).1 b hmem
        · exact ih (List.Pairwise.of_cons h)

theorem normalizeParams_sub (ps : List (List Char × List Char)) :
    ∀ kv ∈ normalizeParams ps, kv ∈ ps := by
  have key : ∀ (ps acc : List (List Char × List Char)),
      ∀ kv ∈ ps.foldl (fun acc kv =>
        if dropParamNames.any (fun d => d == lowerChars kv.1) then acc
        else setParam acc kv.1 kv.2) acc, kv ∈ acc ∨ kv ∈ ps := by
    intro ps
    induction ps with
    | nil => simp
    | cons kv0 rest ih =>
      intro acc kv hkv
      simp only [List.foldl_cons] at hkv
      by_cases hd : (dropParamNames.any (fun d => d == lowerChars kv0.1)) = true
      · rw [if_pos hd] at hkv
        rcases ih acc kv hkv with h | h
        · exact Or.inl h
        · exact Or.inr (by simp [h])
      · rw [if_neg hd] at hkv
        rcases ih (setParam acc kv0.1 kv0.2) kv hkv with h | h
        · rcases mem_setParam acc kv0.1 kv0.2 kv h with rfl | h2
          · exact Or.inr (by simp)
          · exact Or.inl h2
        · exact Or.inr (by simp [h])
  intro kv hkv
  rcases key ps [] kv hkv with h | h
  · simp at h
  · exact h

theorem normalizeParams_not_dropped (ps : List (List Char × List Char)) :
    ∀ kv ∈ normalizeParams ps,
      (dropParamNames.any (fun d => d == lowerChars kv.1)) = false := by
  have key : ∀ (ps acc : List (List Char × List Char)),
      (∀ kv ∈ acc, (dropParamNames.any (fun d => d == lowerChars kv.1)) = false) →
      ∀ kv ∈ ps.foldl (fun acc kv =>
        if dropParamNames.any (fun d => d == lowerChars kv.1) then acc
        else setParam acc kv.1 kv.2) acc,
        (dropParamNames.any (fun d => d == lowerChars kv.1)) = false := by
    intro ps
    induction ps with
    | nil =>
      intro acc hacc kv hkv
      simp only [List.foldl_nil] at hkv
      exact hacc kv hkv
    | cons kv0 rest ih =>
      intro acc hacc kv hkv
      simp only [List.foldl_cons] at hkv
      by_cases hd : (dropParamNames.any (fun d => d == lowerChars kv0.1)) = true
      · rw [if_pos hd] at hkv
        exact ih acc hacc kv hkv
      · rw [if_neg hd] at hkv
        refine ih (setParam acc kv0.1 kv0.2) ?_ kv hkv
        intro kv2 hkv2
        rcases mem_setParam acc kv0.1 kv0.2 kv2 hkv2 with rfl | h2
        · simpa using Bool.eq_false_iff.mpr hd
        · exact hacc kv2 h2
  exact key ps [] (by simp)

theorem normalizeParams_nodup (ps : List (List Char × List Char)) :
    NodupKeys (normalizeParams ps) := by
  have key : ∀ (ps acc : List (List Char × List Char)), NodupKeys acc →
      NodupKeys (ps.foldl (fun acc kv =>
        if dropParamNames.any (fun d => d == lowerChars kv.1) then acc
        else setParam acc kv.1 kv.2) acc) := by
    intro ps
    induction ps with
    | nil =>
      intro acc hacc
      simp only [List.foldl_nil]
      exact hacc
    | cons kv0 rest ih =>
      intro acc hacc
      simp only [List.foldl_cons]
      by_cases hd : (dropParamNames.any (fun d => d == lowerChars kv0.1)) = true
      · rw [if_pos hd]
        exact ih acc hacc
      · rw [if_neg hd]
        exact ih (setParam acc kv0.1 kv0.2) (setParam_nodup acc kv0.1 kv0.2 hacc)
  exact key ps [] (by simp [NodupKeys])

theorem normalizeParams_fixed (ps : List (List Char × List Char))
    (hnodup : NodupKeys ps)
    (hkeep : ∀ kv ∈ ps, (dropParamNames.any (fun d => d == lowerChars kv.1)) = false) :
    normalizeParams ps = ps := by
  have key : ∀ (ps acc : List (List Char × List Char)), NodupKeys (acc ++ ps) →
      (∀ kv ∈ ps, (dropParamNames.any (fun d => d == lowerChars kv.1)) = false) →
      ps.foldl (fun acc kv =>
        if dropParamNames.any (fun d => d == lowerChars kv.1) then acc
        else setParam acc kv.1 kv.2) acc = acc ++ ps := by
    intro ps
    induction ps with
    | nil => simp
    | cons kv0 rest ih =>
      intro acc hnd hkp
      simp only [List.foldl_cons]
      have hd : (dropParamNames.any (fun d => d == lowerChars kv0.1)) = false :=
        hkp kv0 (by simp)
      rw [if_neg (by simp [hd])]
      have hknew : ∀ kv ∈ acc, (kv.1 == kv0.1) = false := by
        intro kv hkv
        have hpair := List.pairwise_append.mp hnd
        have := hpair.2.2 kv hkv kv0 (by simp)
        simpa using this
      rw [setParam_append acc kv0.1 kv0.2 (by
        intro kv hkv
        simpa using hknew kv hkv)]
      have hstep := ih (acc ++ [kv0]) (by simpa using hnd)
        (fun kv hkv => hkp kv (by simp [hkv]))
      have heta : setParam acc kv0.1 kv0.2 = acc ++ [kv0] := by
        rw [setParam_append acc kv0.1 kv0.2 (by
          intro kv hkv
          simpa using hknew kv hkv)]
      rw [hstep]
      simp
  exact key ps [] (by simpa using hnodup) hkeep

theorem normalizeParams_idem (ps : List (List Char × List Char)) :
    normalizeParams (normalizeParams ps) = normalizeParams ps :=
  normalizeParams_fixed (normalizeParams ps) (normalizeParams_nodup ps)
    (normalizeParams_not_dropped ps)

/-! ## Claim C7 — dedup-normalization idempotence -/

/-- C7: `normalizeForDedupe` is idempotent: normalizing an already
normalized URL changes nothing, so a second dedupe pass over the
deduplicator's own output is a fixed point. -/
theorem normalizeForDedupe_idem (u : String) :
    normalizeForDedupe (normalizeForDedupe u) = normalizeForDedupe u := by
  cases hp : parseUrlChars u.data with
  | none =>
    have h1 : normalizeForDedupe u = u := by
      unfold normalizeForDedupe
      rw [hp]
    rw [h1, h1]
  | some m =>
    have h1 : normalizeForDedupe u =
        String.mk (serializeUrl
          ⟨m.scheme, m.host, m.path, normalizeParams m.query, []⟩) := by
      unfold normalizeForDedupe
      rw [hp]
    have hwf := parse_wf u.data m hp
    have hwf2 : UrlWF ⟨m.scheme, m.host, m.path, normalizeParams m.query, []⟩ := by
      refine ⟨hwf.scheme_ne, hwf.scheme_ok, hwf.host_ok, hwf.path_ok, ?_⟩
      intro kv hkv
      exact hwf.query_ok kv (normalizeParams_sub m.query kv hkv)
    have hp2 : parseUrlChars (String.mk (serializeUrl
        ⟨m.scheme, m.host, m.path, normalizeParams m.query, []⟩)).data =
          some ⟨m.scheme, m.host, m.path, normalizeParams m.query, []⟩ :=
      parse_serialize _ hwf2 rfl
    rw [h1]
    unfold normalizeForDedupe
    rw [hp2]
    simp only
    rw [normalizeParams_idem]

/-! ## imageFilter.ts — candidate scoring -/

/-- Provenance of an image candidate. -/
inductive Origin
  | jsonld
  | img
  | source
  | bg
  | link
  | a
  | meta
deriving DecidableEq, Repr

/-- One discovered image reference (interface `ImageCandidate`). -/
structure ImageCandidate where
  url : String
  origin : Option Origin := none
  alt : Option String := none
  classList : Option String := none
  area : Option Nat := none
deriving DecidableEq, Repr

/-- `hasAny(hay, keys)`: does the lower-cased haystack contain any of the
keyword substrings? -/
def hasAnyL (l : List Char) (keys : List String) : Bool :=
  keys.any (fun k => containsSub (lowerChars l) k.data)

/-- The regex `-p(?:\.|\/|-)` (Zara packshot suffix) as a substring test. -/
def testDashP (l : List Char) : Bool :=
  containsSub l ['-', 'p', '.'] || containsSub l ['-', 'p', '/'] ||
    containsSub l ['-', 'p', '-']

/-- The regex `-e(?:\.|\/|-)` (Zara editorial suffix) as a substring test. -/
def testDashE (l : List Char) : Bool :=
  containsSub l ['-', 'e', '.'] || containsSub l ['-', 'e', '/'] ||
    containsSub l ['-', 'e', '-']

/-- `productLikePath` from imageFilter.ts. -/
def productLikePath (url : String) : ℚ :=
  let p := lowerChars url.data
  (if testDashP p then (300 : ℚ) else 0) +
    (if hasAnyL p ["packshot", "product", "/p/", "/prod/", "/products/"]
      then 250 else 0) +
    (if hasAnyL p ["still", "studio", "cutout", "isolated", "isolation"]
      then 180 else 0) +
    (if hasAnyL p ["front", "back", "side", "detail", "flat", "lay"]
      then 120 else 0) +
    (if testDashE p then (-250 : ℚ) else 0) +
    (if hasAnyL p ["look", "outfit", "editorial", "campaign", "lifestyle"]
      then -200 else 0) +
    (if hasAnyL p ["model", "catwalk", "runway"] then -160 else 0) +
    (if hasAnyL p ["/video", ".mp4", ".webm"] then -400 else 0)

/-- `productLikeAlt` from imageFilter.ts. -/
def productLikeAlt (alt : Option String) : ℚ :=
  match alt with
  | none => 0
  | some alt =>
    let a := lowerChars alt.data
    (if hasAnyL a ["front", "back", "side", "detail", "product"]
      then (80 : ℚ) else 0) +
      (if hasAnyL a ["flat", "lay", "packshot", "still"] then 120 else 0) +
      (if hasAnyL a ["model", "on model", "worn"] then -120 else 0) +
      (if hasAnyL a ["look", "outfit"] then -80 else 0)

/-- `productLikeClass` from imageFilter.ts. -/
def productLikeClass (cls : Option String) : ℚ :=
  match cls with
  | none => 0
  | some cls =>
    let c := lowerChars cls.data
    (if hasAnyL c ["product", "gallery", "packshot", "still", "detail"]
      then (60 : ℚ) else 0) +
      (if hasAnyL c ["editorial", "look", "outfit", "campaign", "model"]
        then -120 else 0)

/-- Model of `parseInt(s, 10)`: optional sign followed by leading digits;
`none` for NaN. -/
def parseIntPrefix (l : List Char) : Option Int :=
  let core : List Char → Option Nat := fun ds =>
    let digits := ds.takeWhile isDigitChar
    if digits.isEmpty then none
    else some (digits.foldl (fun acc c => 10 * acc + (c.toNat - 48)) 0)
  match l with
  | '-' :: rest => (core rest).map (fun n => -(n : Int))
  | '+' :: rest => (core rest).map (fun n => (n : Int))
  | _ => (core l).map (fun n => (n : Int))

/-- `URLSearchParams.prototype.get`: value of the first matching key. -/
def getParam (m : UrlModel) (k : String) : Option (List Char) :=
  (m.query.find? (fun kv => kv.1 == k.data)).map (fun kv => kv.2)

/-- The JavaScript `a || b || ...` chain over nullable strings: the first
value that is neither null nor empty, else empty. -/
def firstTruthy : List (Option (List Char)) → List Char
  | [] => []
  | some v :: rest => if v.isEmpty then firstTruthy rest else v
  | none :: rest => firstTruthy rest

/-- `preferHighRes` from imageFilter.ts. -/
def preferHighRes (url : String) : ℚ :=
  let fallback : ℚ :=
    if hasAnyL url.data ["/p/", "product", "catalog", "assets", "images"]
      then 100 else 40
  match parseUrlChars url.data with
  | some m =>
    let wval : Int := (parseIntPrefix (firstTruthy
      [getParam m "w", getParam m "width", getParam m "imwidth",
        getParam m "wid"])).getD 0
    if wval ≠ 0 then ((if wval ≤ 2400 then wval else 2400 : ℤ) : ℚ) / 4 else fallback
  | none => fallback

/-- `scoreImageCandidate` from imageFilter.ts: the additive heuristic
product-likeness score. -/
def scoreImageCandidate (c : ImageCandidate) : ℚ :=
  productLikePath c.url + productLikeAlt c.alt + productLikeClass c.classList +
    (if c.origin = some Origin.img ∨ c.origin = some Origin.source
      then (20 : ℚ) else 0) +
    (if c.origin = some Origin.bg ∨ c.origin = some Origin.a
      then (-10 : ℚ) else 0) +
    (match c.area with
     | some a => if 0 < a then ((Nat.min 200 (a / 4000) : ℕ) : ℚ) else preferHighRes c.url
     | none => preferHighRes c.url)

/-! ## imageFilter.ts — finalizeImageCandidates (deduplication) -/

/-- `Map.prototype.get` over the insertion-ordered association list. -/
def mapGet (m : List (String × String × ℚ)) (key : String) : Option (String × ℚ) :=
  (m.find? (fun e => e.1 == key)).map (fun e => e.2)

/-- `Map.prototype.set`: replace in place, or append a new key. -/
def mapSet (m : List (String × String × ℚ)) (key : String) (v : String × ℚ) :
    List (String × String × ℚ) :=
  match m with
  | [] => [(key, v)]
  | e :: rest => if e.1 == key then (key, v) :: rest else e :: mapSet rest key v

/-- The dedup loop of `finalizeImageCandidates`: keep, per normalized key,
the entry with the strictly greater score (first inserted wins ties). -/
def buildByKey (cands : List ImageCandidate) : List (String × String × ℚ) :=
  cands.foldl (fun m c =>
    let key := normalizeForDedupe c.url
    let s := scoreImageCandidate c
    match mapGet m key with
    | none => mapSet m key (c.url, s)
    | some prev => if s > prev.2 then mapSet m key (c.url, s) else m) []

/-- Stable insertion for the descending-score sort
(`.sort((a, b) => b.score - a.score)`). -/
def insertByScore (x : String × ℚ) : List (String × ℚ) → List (String × ℚ)
  | [] => [x]
  | y :: ys => if x.2 > y.2 then x :: y :: ys else y :: insertByScore x ys

/-- Stable sort by score descending. -/
def sortByScoreDesc (l : List (String × ℚ)) : List (String × ℚ) :=
  l.foldl (fun acc x => insertByScore x acc) []

/-- `finalizeImageCandidates` from imageFilter.ts: dedup by normalized
URL, rank by score descending, cap at `max`. -/
def finalizeImageCandidates (cands : List ImageCandidate) (max : Nat := 24) :
    List String :=
  (((buildByKey cands).map (fun e => e.2)) |> sortByScoreDesc |>.map
    (fun x => x.1)).take max

/-! ## Claim C6 — dedup survivor -/

/-- One dedup comparison: keep the previous entry unless the new score is
strictly greater (`if (!prev || s > prev.score)`). -/
def bestStep (best : Option (String × ℚ)) (c : ImageCandidate) :
    Option (String × ℚ) :=
  match best with
  | none => some (c.url, scoreImageCandidate c)
  | some prev =>
    if scoreImageCandidate c > prev.2 then some (c.url, scoreImageCandidate c)
    else some prev

theorem mapGet_set_same (m : List (String × String × ℚ)) (key : String)
    (v : String × ℚ) : mapGet (mapSet m key v) key = some v := by
  induction m with
  | nil => simp [mapSet, mapGet, List.find?]
  | cons e rest ih =>
    simp only [mapSet]
    by_cases he : (e.1 == key) = true
    · rw [if_pos he]
      simp [mapGet, List.find?]
    · rw [if_neg he]
      simp only [mapGet, List.find?, he]
      exact ih

theorem mapGet_set_other (m : List (String × String × ℚ)) (key : String)
    (v : String × ℚ) (k : String) (h : (key == k) = false) :
    mapGet (mapSet m key v) k = mapGet m k := by
  induction m with
  | nil => simp [mapSet, mapGet, List.find?, h]
  | cons e rest ih =>
    simp only [mapSet]
    by_cases he : (e.1 == key) = true
    · rw [if_pos he]
      have hek : (e.1 == k) = false := by
        have h1 : e.1 = key := by simpa using he
        rw [h1]
        exact h
      simp only [mapGet, List.find?, h, hek]
    · rw [if_neg he]
      simp only [mapGet, List.find?] at ih ⊢
      by_cases hek : (e.1 == k) = true
      · simp [hek]
      · simp only [Bool.not_eq_true] at hek
        simp only [hek]
        exact ih

theorem buildByKey_filter (cands : List ImageCandidate) (k : String) :
    mapGet (buildByKey cands) k =
      (cands.filter (fun c => normalizeForDedupe c.url == k)).foldl
        bestStep none := by
  have key : ∀ (cands : List ImageCandidate) (m : List (String × String × ℚ)),
      mapGet (cands.foldl (fun m c =>
        let key := normalizeForDedupe c.url
        let s := scoreImageCandidate c
        match mapGet m key with
        | none => mapSet m key (c.url, s)
        | some prev => if s > prev.2 then mapSet m key (c.url, s) else m) m) k =
      (cands.filter (fun c => normalizeForDedupe c.url == k)).foldl
        bestStep (mapGet m k) := by
    intro cands
    induction cands with
    | nil => intro m; rfl
    | cons c rest ih =>
      intro m
      simp only [List.foldl_cons, List.filter]
      by_cases hk : (normalizeForDedupe c.url == k) = true
      · have hkey : normalizeForDedupe c.url = k := by simpa using hk
        rw [hk]
        rw [ih]
        have hstep : mapGet (match mapGet m (normalizeForDedupe c.url) with
            | none => mapSet m (normalizeForDedupe c.url)
                (c.url, scoreImageCandidate c)
            | some prev => if scoreImageCandidate c > prev.2 then
                mapSet m (normalizeForDedupe c.url)
                  (c.url, scoreImageCandidate c)
              else m) k = bestStep (mapGet m k) c := by
          rw [hkey]
          cases hg : mapGet m k with
          | none => simp only [hg, bestStep, mapGet_set_same]
          | some prev =>
            simp only [hg, bestStep]
            by_cases hs : scoreImageCandidate c > prev.2
            · rw [if_pos hs, if_pos hs, mapGet_set_same]
            · rw [if_neg hs, if_neg hs, hg]
        simp only [List.foldl_cons]
        rw [hstep]
      · have hk2 : (normalizeForDedupe c.url == k) = false :=
          Bool.eq_false_iff.mpr (by simpa using hk)
        rw [hk2]
        simp only
        rw [ih]
        have hstep : mapGet (match mapGet m (normalizeForDedupe c.url) with
            | none => mapSet m (normalizeForDedupe c.url)
                (c.url, scoreImageCandidate c)
            | some prev => if scoreImageCandidate c > prev.2 then
                mapSet m (normalizeForDedupe c.url)
                  (c.url, scoreImageCandidate c)
              else m) k = mapGet m k := by
          cases hg : mapGet m (normalizeForDedupe c.url) with
          | none => simp only [hg, mapGet_set_other _ _ _ _ hk2]
          | some prev =>
            simp only [hg]
            by_cases hs : scoreImageCandidate c > prev.2
            · rw [if_pos hs, mapGet_set_other _ _ _ _ hk2]
            · rw [if_neg hs]
        rw [hstep]
  exact key cands []

theorem bestFold_from_some (ys : List ImageCandidate) (bv : String × ℚ) :
    (ys.foldl bestStep (some bv) = some bv ∧
      ∀ q ∈ ys, scoreImageCandidate q ≤ bv.2) ∨
    (∃ pre c post, ys = pre ++ c :: post ∧
      ys.foldl bestStep (some bv) = some (c.url, scoreImageCandidate c) ∧
      bv.2 < scoreImageCandidate c ∧
      (∀ p ∈ pre, scoreImageCandidate p < scoreImageCandidate c) ∧
      (∀ q ∈ post, scoreImageCandidate q ≤ scoreImageCandidate c)) := by
  induction ys generalizing bv with
  | nil => exact Or.inl ⟨rfl, by simp⟩
  | cons q rest ih =>
    simp only [List.foldl_cons]
    by_cases hgt : scoreImageCandidate q > bv.2
    · have hb : bestStep (some bv) q = some (q.url, scoreImageCandidate q) := by
        simp [bestStep, hgt]
      rw [hb]
      rcases ih (q.url, scoreImageCandidate q) with ⟨h1, h2⟩ |
          ⟨pre, c, post, heq, hres, hlt, hpre, hpost⟩
      · exact Or.inr ⟨[], q, rest, rfl, h1, hgt, by simp, h2⟩
      · refine Or.inr ⟨q :: pre, c, post, by rw [heq]; simp, hres,
          lt_trans hgt hlt, ?_, hpost⟩
        intro p hp
        rcases List.mem_cons.mp hp with rfl | hp2
        · exact hlt
        · exact hpre p hp2
    · have hb : bestStep (some bv) q = some bv := by
        simp [bestStep, hgt]
      rw [hb]
      have hle : scoreImageCandidate q ≤ bv.2 := le_of_not_lt hgt
      rcases ih bv with ⟨h1, h2⟩ | ⟨pre, c, post, heq, hres, hlt, hpre, hpost⟩
      · refine Or.inl ⟨h1, ?_⟩
        intro q2 hq2
        rcases List.mem_cons.mp hq2 with rfl | hq3
        · exact hle
        · exact h2 q2 hq3
      · refine Or.inr ⟨q :: pre, c, post, by rw [heq]; simp, hres, hlt, ?_, hpost⟩
        intro p hp
        rcases List.mem_cons.mp hp with rfl | hp2
        · exact lt_of_le_of_lt hle hlt
        · exact hpre p hp2

/-- C6: the deduplicator is a total function (the empty list yields the
empty list), and in every group of raw candidates whose URLs normalize to
the same key, the entry the dedup map keeps is the first-inserted
candidate of strictly maximal heuristic score: every earlier group member
scores strictly lower, every later member scores no higher (score ties
keep the first-inserted candidate). -/
theorem finalize_total_and_group_survivor :
    finalizeImageCandidates [] 24 = [] ∧
    ∀ (cands : List ImageCandidate) (k : String) (g : List ImageCandidate),
      g = cands.filter (fun c => normalizeForDedupe c.url == k) →
      g ≠ [] →
      ∃ pre c post, g = pre ++ c :: post ∧
        mapGet (buildByKey cands) k = some (c.url, scoreImageCandidate c) ∧
        (∀ p ∈ pre, scoreImageCandidate p < scoreImageCandidate c) ∧
        (∀ q ∈ post, scoreImageCandidate q ≤ scoreImageCandidate c) := by
  refine ⟨rfl, ?_⟩
  intro cands k g hg hne
  have hfold : mapGet (buildByKey cands) k = g.foldl bestStep none := by
    rw [buildByKey_filter, hg]
  cases hgl : g with
  | nil => exact absurd hgl hne
  | cons y ys =>
    rw [hgl] at hfold
    simp only [List.foldl_cons, bestStep] at hfold
    rcases bestFold_from_some ys (y.url, scoreImageCandidate y) with
        ⟨h1, h2⟩ | ⟨pre, c, post, heq, hres, hlt, hpre, hpost⟩
    · refine ⟨[], y, ys, by simp [hgl], ?_, by simp, h2⟩
      rw [hfold, h1]
    · refine ⟨y :: pre, c, post, by simp [hgl, heq], ?_, ?_, hpost⟩
      · rw [hfold, hres]
      · intro p hp
        rcases List.mem_cons.mp hp with rfl | hp2
        · exact hlt
        · exact hpre p hp2

def shirtSmall : ImageCandidate :=
  { url := "https://site.com/img/shirt.jpg?w=400&q=80" }

def shirtLarge : ImageCandidate :=
  { url := "https://site.com/img/shirt.jpg?w=1600&format=webp" }

/-- Concrete instantiation of C6 on the spec's parameter-stripping
example: both variants share the stripped key and the higher-resolution,
higher-scoring variant survives. -/
theorem finalize_total_and_group_survivor_witness :
    ∃ pre c post,
      ([shirtSmall, shirtLarge].filter (fun c =>
        normalizeForDedupe c.url == "https://site.com/img/shirt.jpg")) =
          pre ++ c :: post ∧
      mapGet (buildByKey [shirtSmall, shirtLarge])
          ("https://site.com/img/shirt.jpg") =
        some (c.url, scoreImageCandidate c) ∧
      (∀ p ∈ pre, scoreImageCandidate p < scoreImageCandidate c) ∧
      (∀ q ∈ post, scoreImageCandidate q ≤ scoreImageCandidate c) :=
  finalize_total_and_group_survivor.2 [shirtSmall, shirtLarge]
    ("https://site.com/img/shirt.jpg") _ rfl (by decide)

/-! ## imageCluster.ts — product-key extraction -/

/-- Does the position after the suffix letter close the SKU pattern
(`(?:[./_-]|$)`)? -/
def isSepAfter : List Char → Bool
  | [] => true
  | c :: _ => c == '.' || c == '/' || c == '_' || c == '-'

/-- Try the SKU regex `(\d{6,})[-_](?:p|e)(?:[./_-]|$)` at the current
position: a greedy digit run of 6+, then `-` or `_`, then `p` or `e`,
then a separator or the end. -/
def trySkuHere (l : List Char) : Option (List Char) :=
  let digits := l.takeWhile isDigitChar
  let rest := l.drop digits.length
  if 6 ≤ digits.length then
    match rest with
    | m :: pc :: rest2 =>
      if (m == '-' || m == '_') && (pc == 'p' || pc == 'e') && isSepAfter rest2
        then some digits else none
    | _ => none
  else none

/-- Leftmost match of the SKU regex (`String.prototype.match` semantics):
try every start position from the left, return the first capture. -/
def matchSku : List Char → Option (List Char)
  | [] => none
  | c :: rest =>
    match trySkuHere (c :: rest) with
    | some d => some d
    | none => matchSku rest

/-- Scanner for maximal digit runs: `cur` is the current run, reversed. -/
def maximalRunsAux : List Char → List Char → List (List Char)
  | [], cur => if cur.isEmpty then [] else [cur.reverse]
  | c :: rest, cur =>
    if isDigitChar c then maximalRunsAux rest (c :: cur)
    else if cur.isEmpty then maximalRunsAux rest []
    else cur.reverse :: maximalRunsAux rest []

/-- All maximal digit runs of a character list, left to right. -/
def maximalRuns (l : List Char) : List (List Char) := maximalRunsAux l []

/-- The matches of `/\d{6,}/g`: maximal digit runs of length at least 6. -/
def digitRuns (l : List Char) : List (List Char) :=
  (maximalRuns l).filter (fun r => 6 ≤ r.length)

/-- Stable insertion for `.sort((a, b) => b.length - a.length)`. -/
def insertByLen (x : List Char) : List (List Char) → List (List Char)
  | [] => [x]
  | y :: ys => if x.length > y.length then x :: y :: ys else y :: insertByLen x ys

/-- Stable sort by length descending. -/
def sortByLenDesc (runs : List (List Char)) : List (List Char) :=
  runs.foldl (fun acc x => insertByLen x acc) []

/-- Extension characters for the trailing `\.[a-z0-9]+$` strip. -/
def isExtChar (c : Char) : Bool :=
  decide ((97 ≤ c.toNat ∧ c.toNat ≤ 122) ∨ (48 ≤ c.toNat ∧ c.toNat ≤ 57))

/-- `seg.replace(/\.[a-z0-9]+$/i, "")` on an already lower-cased segment. -/
def stripExt (seg : List Char) : List Char :=
  let rev := seg.reverse
  let ext := rev.takeWhile isExtChar
  if ext.isEmpty then seg
  else
    match rev.drop ext.length with
    | '.' :: _ => (rev.drop (ext.length + 1)).reverse
    | _ => seg

/-- The final fallback of `extractProductKeyFromUrl`: the last two
non-empty path segments, extensions stripped, joined by `:`
(`[prev, last].filter(Boolean).join(":") || last || null`). -/
def lastTwoSegsKey (segs : List (List Char)) : Option String :=
  match segs.reverse with
  | [] => none
  | l1 :: rest =>
    let lastSeg := stripExt l1
    let prevSeg : List (List Char) :=
      match rest with
      | [] => []
      | l2 :: _ => [stripExt l2]
    let pieces := (prevSeg ++ [lastSeg]).filter (fun s => !s.isEmpty)
    let joined := List.intercalate [':'] pieces
    if !joined.isEmpty then some (String.mk joined)
    else if !lastSeg.isEmpty then some (String.mk lastSeg)
    else none

/-- The body of `extractProductKeyFromUrl` on the lower-cased pathname:
SKU pattern first, then the longest 6+ digit run, then the last two
segments, else null. -/
def extractKeyFromPath (p : List Char) : Option String :=
  match matchSku p with
  | some d => some (String.mk d)
  | none =>
    match (sortByLenDesc (digitRuns p)).head? with
    | some r => some (String.mk r)
    | none =>
      let segs := (splitOnChar '/' p).filter (fun s => !s.isEmpty)
      if segs.isEmpty then none else lastTwoSegsKey segs

/-- `extractProductKeyFromUrl` from imageCluster.ts; `none` also models
the `catch` branch on unparsable URLs. -/
def extractProductKeyFromUrl (u : String) : Option String :=
  match parseUrlChars u.data with
  | none => none
  | some m => extractKeyFromPath (lowerChars m.path)

/-! ## Claim C5 — the product-key fallback chain -/

/-- One comparison of the length-descending sort: a later run displaces
the current best only when strictly longer. -/
def bestRun (best : Option (List Char)) (r : List Char) : Option (List Char) :=
  match best with
  | none => some r
  | some b => if r.length > b.length then some r else some b

theorem sortByLenDesc_head (runs : List (List Char)) :
    (sortByLenDesc runs).head? = runs.foldl bestRun none := by
  have key : ∀ (runs acc : List (List Char)),
      (runs.foldl (fun acc x => insertByLen x acc) acc).head? =
        runs.foldl bestRun acc.head? := by
    intro runs
    induction runs with
    | nil => intro acc; rfl
    | cons y ys ih =>
      intro acc
      simp only [List.foldl_cons]
      rw [ih (insertByLen y acc)]
      have hstep : (insertByLen y acc).head? = bestRun acc.head? y := by
        cases acc with
        | nil => rfl
        | cons a as =>
          simp only [insertByLen, bestRun, List.head?_cons]
          by_cases hy : y.length > a.length
          · rw [if_pos hy, if_pos hy]
            rfl
          · rw [if_neg hy, if_neg hy]
            rfl
      rw [hstep]
  exact key runs []

theorem lenFold_from_some (ys : List (List Char)) (b : List Char) :
    (ys.foldl bestRun (some b) = some b ∧ ∀ q ∈ ys, q.length ≤ b.length) ∨
    (∃ pre r post, ys = pre ++ r :: post ∧
      ys.foldl bestRun (some b) = some r ∧ b.length < r.length ∧
      (∀ p ∈ pre, p.length < r.length) ∧
      (∀ q ∈ post, q.length ≤ r.length)) := by
  induction ys generalizing b with
  | nil => exact Or.inl ⟨rfl, by simp⟩
  | cons q rest ih =>
    simp only [List.foldl_cons]
    by_cases hgt : q.length > b.length
    · have hb : bestRun (some b) q = some q := by simp [bestRun, hgt]
      rw [hb]
      rcases ih q with ⟨h1, h2⟩ | ⟨pre, r, post, heq, hres, hlt, hpre, hpost⟩
      · exact Or.inr ⟨[], q, rest, rfl, h1, hgt, by simp, h2⟩
      · refine Or.inr ⟨q :: pre, r, post, by rw [heq]; simp, hres,
          lt_trans hgt hlt, ?_, hpost⟩
        intro p hp
        rcases List.mem_cons.mp hp with rfl | hp2
        · exact hlt
        · exact hpre p hp2
    · have hb : bestRun (some b) q = some b := by simp [bestRun, hgt]
      rw [hb]
      have hle : q.length ≤ b.length := le_of_not_lt hgt
      rcases ih b with ⟨h1, h2⟩ | ⟨pre, r, post, heq, hres, hlt, hpre, hpost⟩
      · refine Or.inl ⟨h1, ?_⟩
        intro q2 hq2
        rcases List.mem_cons.mp hq2 with rfl | hq3
        · exact hle
        · exact h2 q2 hq3
      · refine Or.inr ⟨q :: pre, r, post, by rw [heq]; simp, hres, hlt, ?_, hpost⟩
        intro p hp
        rcases List.mem_cons.mp hp with rfl | hp2
        · exact lt_of_le_of_lt hle hlt
        · exact hpre p hp2

/-- C5: `extractProductKeyFromUrl` follows the ordered fallback chain,
first match wins: (1) a 6+ digit run with a single-letter `p`/`e` suffix
yields the digit run; (2) otherwise the longest 6+ digit run of the path,
ties broken by first occurrence; (3) otherwise the last two non-empty
path segments with extensions stripped, joined; (4) `none` when no path
segments exist.  Both spec example URLs extract `06987325409`. -/
theorem extractProductKey_chain :
    extractProductKeyFromUrl
        ("https://example.com/products/06987325409-p/06987325409-p.jpg") =
      some ("06987325409") ∧
    extractProductKeyFromUrl
        ("https://example.com/products/06987325409-p/06987325409-e1.jpg") =
      some ("06987325409") ∧
    (∀ p d, matchSku p = some d → extractKeyFromPath p = some (String.mk d)) ∧
    (∀ p, matchSku p = none → digitRuns p ≠ [] →
      ∃ pre r post, digitRuns p = pre ++ r :: post ∧
        extractKeyFromPath p = some (String.mk r) ∧
        (∀ q ∈ pre, q.length < r.length) ∧
        (∀ q ∈ post, q.length ≤ r.length)) ∧
    (∀ p, matchSku p = none → digitRuns p = [] →
      ((splitOnChar '/' p).filter (fun s => !s.isEmpty)) ≠ [] →
      extractKeyFromPath p =
        lastTwoSegsKey ((splitOnChar '/' p).filter (fun s => !s.isEmpty))) ∧
    (∀ p, matchSku p = none → digitRuns p = [] →
      ((splitOnChar '/' p).filter (fun s => !s.isEmpty)) = [] →
      extractKeyFromPath p = none) := by
  refine ⟨by decide, by decide, ?_, ?_, ?_, ?_⟩
  · intro p d h
    unfold extractKeyFromPath
    rw [h]
  · intro p hsku hruns
    unfold extractKeyFromPath
    rw [hsku]
    cases hdr : digitRuns p with
    | nil => exact absurd hdr hruns
    | cons y ys =>
      have hhead := sortByLenDesc_head (y :: ys)
      simp only [List.foldl_cons, bestRun] at hhead
      rcases lenFold_from_some ys y with ⟨h1, h2⟩ |
          ⟨pre, r, post, heq, hres, hlt, hpre, hpost⟩
      · refine ⟨[], y, ys, by simp, ?_, by simp, h2⟩
        rw [hhead, h1]
      · refine ⟨y :: pre, r, post, by simp [heq], ?_, ?_, hpost⟩
        · rw [hhead, hres]
        · intro q hq
          rcases List.mem_cons.mp hq with rfl | hq2
          · exact hlt
          · exact hpre q hq2
  · intro p hsku hruns hsegs
    unfold extractKeyFromPath
    rw [hsku, hruns]
    simp only [sortByLenDesc, List.foldl_nil, List.head?_nil]
    rw [if_neg (by simpa using hsegs)]
  · intro p hsku hruns hsegs
    unfold extractKeyFromPath
    rw [hsku, hruns]
    simp only [sortByLenDesc, List.foldl_nil, List.head?_nil]
    rw [if_pos (by simpa using hsegs)]

/-- Concrete instantiation of the longest-run tie-break of C5: with two
6-digit runs of equal length, the first occurrence wins. -/
theorem extractProductKey_chain_witness :
    ∃ pre r post,
      digitRuns (String.data ("/a/123456/b/654321x")) = pre ++ r :: post ∧
      extractKeyFromPath (String.data ("/a/123456/b/654321x")) =
        some (String.mk r) ∧
      (∀ q ∈ pre, q.length < r.length) ∧
      (∀ q ∈ post, q.length ≤ r.length) :=
  extractProductKey_chain.2.2.2.1 (String.data ("/a/123456/b/654321x"))
    (by decide) (by decide)

/-! ## imageCluster.ts — primary-product cluster selection -/

/-- Separators of the token split `/[\/._\-]+/`. -/
def isTokenSep (c : Char) : Bool := c == '/' || c == '.' || c == '_' || c == '-'

/-- Split on runs of token separators, dropping empty pieces
(`split(/[\/._\-]+/).filter(Boolean)`); `cur` holds the current piece
reversed. -/
def splitSepsAux : List Char → List Char → List (List Char)
  | [], cur => if cur.isEmpty then [] else [cur.reverse]
  | c :: rest, cur =>
    if isTokenSep c then
      if cur.isEmpty then splitSepsAux rest []
      else cur.reverse :: splitSepsAux rest []
    else splitSepsAux rest (c :: cur)

/-- First-occurrence deduplication of token lists (JavaScript `Set`). -/
def dedupFirstL (l : List (List Char)) : List (List Char) :=
  l.foldl (fun acc u => if u ∈ acc then acc else acc ++ [u]) []

/-- `urlTokens` from imageCluster.ts: lower-cased path pieces plus the
6+ digit runs, as a set; empty on parse failure. -/
def urlTokens (u : String) : List (List Char) :=
  match parseUrlChars u.data with
  | none => []
  | some m =>
    let base := lowerChars m.path
    dedupFirstL (splitSepsAux base [] ++ digitRuns base)

/-- `Math.max` on two rationals. -/
def qmax (a b : ℚ) : ℚ := if a < b then b else a

/-- `Math.min` on two rationals. -/
def qmin (a b : ℚ) : ℚ := if a ≤ b then a else b

/-- `jaccard` from imageCluster.ts over deduplicated token lists. -/
def jaccard (a b : List (List Char)) : ℚ :=
  if a.isEmpty || b.isEmpty then 0
  else
    let inter := (a.filter (fun t => t ∈ b)).length
    (inter : ℚ) / ((a.length + b.length - inter : ℕ) : ℚ)

/-- `new URL(u).hostname`: the authority up to a port separator. -/
def hostnameOf (u : String) : Option (List Char) :=
  (parseUrlChars u.data).map (fun m => (splitAtFirst (fun c => c == ':') m.host).1)

/-- A candidate together with its derived fields (interface `ScoredCand`). -/
structure ScoredCand where
  cand : ImageCandidate
  score : ℚ
  key : Option String
  anchorSim : ℚ
  host : Option (List Char)
deriving DecidableEq, Repr

/-- `scoreAgainstAnchors` from imageCluster.ts. -/
def scoreAgainstAnchors (cands : List ImageCandidate) (anchors : List String) :
    List ScoredCand :=
  let anchorTokens := anchors.map urlTokens
  let anchorHosts := anchors.filterMap hostnameOf
  cands.map (fun cand =>
    let s := scoreImageCandidate cand
    let t := urlTokens cand.url
    let bestSim := anchorTokens.foldl (fun acc at0 => qmax acc (jaccard t at0)) 0
    let host := hostnameOf cand.url
    let hostBump : ℚ :=
      match host with
      | some h => if h ∈ anchorHosts then 1 / 20 else 0
      | none => 0
    { cand := cand, score := s, key := extractProductKeyFromUrl cand.url,
      anchorSim := qmin 1 (bestSim + hostBump), host := host })

/-- `pickHeroImgCandidate` from imageCluster.ts: the img/source candidate
with the highest score plus area bump; first seen wins ties. -/
def pickHeroImgCandidate (cands : List ImageCandidate) : Option String :=
  (cands.foldl (fun best c =>
    if c.origin ≠ some Origin.img ∧ c.origin ≠ some Origin.source then best
    else
      let v := scoreImageCandidate c + (match c.area with
        | some a => if a ≠ 0 then ((Nat.min 200 (a / 4000) : ℕ) : ℚ) else 0
        | none => 0)
      match best with
      | none => some (c.url, v)
      | some b => if v > b.2 then some (c.url, v) else best) none).map
    (fun b => b.1)

/-- The cluster key of a scored candidate (`sc.key ?? "__nokey__"`). -/
def clusterKeyOf (sc : ScoredCand) : String := sc.key.getD "__nokey__"

/-- Append to the bucket of a key, keeping key insertion order
(`Map` semantics of the cluster build loop). -/
def addToClusters (m : List (String × List ScoredCand)) (k : String)
    (sc : ScoredCand) : List (String × List ScoredCand) :=
  match m with
  | [] => [(k, [sc])]
  | e :: rest =>
    if e.1 == k then (e.1, e.2 ++ [sc]) :: rest else e :: addToClusters rest k sc

/-- Build the product-key clusters in key insertion order. -/
def buildClusters (scored : List ScoredCand) : List (String × List ScoredCand) :=
  scored.foldl (fun m sc => addToClusters m (clusterKeyOf sc) sc) []

/-- The combined cluster score of `selectPrimaryProductImages`. -/
def clusterScore (uniqAnchors anchorKeys : List String) (k : String)
    (arr : List ScoredCand) : ℚ :=
  let sumScore := (arr.map (fun sc => sc.score)).sum
  let sumAnchor := (arr.map (fun sc => sc.anchorSim * 400)).sum
  let sameKeyBonus : ℚ := if k ∈ anchorKeys then 1500 else 0
  let packshotBonus : ℚ :=
    if arr.any (fun sc => testDashP (lowerChars sc.cand.url.data)) then 500 else 0
  let sameHostBonus : ℚ :=
    ((arr.filter (fun sc =>
      match hostnameOf sc.cand.url with
      | some h => uniqAnchors.any (fun a => hostnameOf a == some h)
      | none => false)).length : ℕ) * 5
  sumScore + sumAnchor + sameKeyBonus + packshotBonus + sameHostBonus

/-- The winning key of the cluster-score fold: strict improvement over a
`-Infinity` start, first maximum wins; `""` for an empty cluster map. -/
def bestClusterFold (uniqAnchors anchorKeys : List String)
    (clusters : List (String × List ScoredCand)) : String × Option ℚ :=
  clusters.foldl (fun best e =>
    let s := clusterScore uniqAnchors anchorKeys e.1 e.2
    match best.2 with
    | none => (e.1, some s)
    | some b => if s > b then (e.1, some s) else best) ("", none)

/-- The `__nokey__` guard: re-check keyed clusters containing a packshot
match under the relaxed score plus a 300 bonus. -/
def altClusterFold (clusters : List (String × List ScoredCand))
    (init : String × ℚ) : String × ℚ :=
  clusters.foldl (fun best e =>
    if e.1 == "__nokey__" then best
    else if !(e.2.any (fun sc => testDashP (lowerChars sc.cand.url.data))) then best
    else
      let s := (e.2.map (fun sc => sc.score)).sum +
        (e.2.map (fun sc => sc.anchorSim * 400)).sum + 300
      if s > best.2 then (e.1, s) else best) init

/-- Stable insertion for the output ordering: anchor similarity
descending, then score descending. -/
def insertByAnchorSim (x : ScoredCand) : List ScoredCand → List ScoredCand
  | [] => [x]
  | y :: ys =>
    if x.anchorSim > y.anchorSim ∨ (x.anchorSim = y.anchorSim ∧ x.score > y.score)
      then x :: y :: ys
    else y :: insertByAnchorSim x ys

/-- Stable sort of the chosen cluster. -/
def sortChosen (l : List ScoredCand) : List ScoredCand :=
  l.foldl (fun acc x => insertByAnchorSim x acc) []

/-- The final loop: de-duplicate by normalized URL and stop at `max`. -/
def dedupCapGo (max : Nat) (seen out : List String) : List String → List String
  | [] => out
  | u :: rest =>
    let key := normalizeForDedupe u
    let seen2 := if key ∈ seen then seen else seen ++ [key]
    let out2 := if key ∈ seen then out else out ++ [u]
    if max ≤ out2.length then out2 else dedupCapGo max seen2 out2 rest

/-- The effective anchor list: explicit non-empty anchors deduplicated,
with the hero-image fallback when none remain. -/
def uniqAnchorsOf (allCandidates : List ImageCandidate) (anchors : List String) :
    List String :=
  let uniq := dedupFirst (anchors.filter (fun a => !a.isEmpty))
  if uniq.isEmpty then
    match pickHeroImgCandidate allCandidates with
    | some hero => [hero]
    | none => []
  else uniq

/-- The cluster map of a run of `selectPrimaryProductImages`. -/
def clustersOf (allCandidates : List ImageCandidate) (anchors : List String) :
    List (String × List ScoredCand) :=
  buildClusters (scoreAgainstAnchors allCandidates (uniqAnchorsOf allCandidates anchors))

/-- The winning cluster key of a run of `selectPrimaryProductImages`
(before the `__nokey__` guard). -/
def bestClusterKeyOf (allCandidates : List ImageCandidate)
    (anchors : List String) : String :=
  (bestClusterFold (uniqAnchorsOf allCandidates anchors)
    ((uniqAnchorsOf allCandidates anchors).filterMap extractProductKeyFromUrl)
    (clustersOf allCandidates anchors)).1

/-- `selectPrimaryProductImages` from imageCluster.ts. -/
def selectPrimaryProductImages (allCandidates : List ImageCandidate)
    (anchors : List String) (max : Nat := 24) : List String :=
  let uniqAnchors := uniqAnchorsOf allCandidates anchors
  let clusters := clustersOf allCandidates anchors
  let anchorKeys := uniqAnchors.filterMap extractProductKeyFromUrl
  let best := bestClusterFold uniqAnchors anchorKeys clusters
  let bestKey := best.1
  let chosen0 := ((clusters.find? (fun e => e.1 == bestKey)).map
    (fun e => e.2)).getD []
  let chosen :=
    if bestKey == "__nokey__" then
      let alt := altClusterFold clusters (bestKey, (best.2).getD 0)
      if alt.1 ≠ "__nokey__" then
        ((clusters.find? (fun e => e.1 == alt.1)).map (fun e => e.2)).getD chosen0
      else chosen0
    else chosen0
  let ordered := (sortChosen chosen).map (fun sc => sc.cand.url)
  dedupCapGo max [] [] ordered

/-! ## Claim C9 — the 50-candidate scale scenario -/

/-- A cluster of `n` equal-looking product-page candidates sharing one
8-digit product key. -/
def mkClusterCands (key : String) (n : Nat) : List ImageCandidate :=
  (List.range n).map (fun i =>
    { url := ("https://s.ex/p/" ++ key ++ "/i" ++ toString i ++ ".jpg") })

/-- The single anchor of the scale scenario; its product key is
`11122233`. -/
def anchorsC9 : List String := ["https://s.ex/a/11122233/m.jpg"]

/-- 50 candidates in three clusters: the anchor-matching cluster has 15
members and both unrelated clusters are larger (18 and 17). -/
def candsBalanced : List ImageCandidate :=
  mkClusterCands ("11122233") 15 ++ mkClusterCands ("44455566") 18 ++
    mkClusterCands ("77788899") 17

/-- 50 candidates in three clusters: one unrelated cluster holds 30 of
the 50 members against 15 anchor-matching ones. -/
def candsSkewed : List ImageCandidate :=
  mkClusterCands ("11122233") 15 ++ mkClusterCands ("44455566") 30 ++
    mkClusterCands ("77788899") 5

set_option maxHeartbeats 4000000 in
set_option maxRecDepth 100000 in
/-- Counterexample to C9: 50 candidates across 3 distinct product keys,
one matching the anchor's key (15 members) and two unrelated; the
unrelated cluster with 30 equal-scored members outweighs the 1500-point
anchor-key bonus and wins the cluster-score fold, so the winning cluster
is not the anchor-matching one. -/
theorem selectPrimary_scale_counterexample :
    ((uniqAnchorsOf candsSkewed anchorsC9).filterMap extractProductKeyFromUrl) =
      [("11122233")] ∧
    candsSkewed.length = 50 ∧
    ((clustersOf candsSkewed anchorsC9).map (fun e => (e.1, e.2.length))) =
      [(("11122233"), 15), (("44455566"), 30), (("77788899"), 5)] ∧
    bestClusterKeyOf candsSkewed anchorsC9 = ("44455566") := by
  refine ⟨by decide, by decide, by decide, by with_unfolding_all rfl⟩

set_option maxHeartbeats 4000000 in
set_option maxRecDepth 100000 in
/-- C9 as amended: in the 50-candidate, 3-key scenario the
anchor-matching cluster wins as long as the unrelated clusters' summed
score advantage stays below its anchor-key bonus and anchor-similarity
margin — here both unrelated clusters have more members (18 and 17
against 15) and the anchor-matching cluster still wins. -/
theorem selectPrimary_scale_amended :
    ((uniqAnchorsOf candsBalanced anchorsC9).filterMap extractProductKeyFromUrl) =
      [("11122233")] ∧
    candsBalanced.length = 50 ∧
    ((clustersOf candsBalanced anchorsC9).map (fun e => (e.1, e.2.length))) =
      [(("11122233"), 15), (("44455566"), 18), (("77788899"), 17)] ∧
    bestClusterKeyOf candsBalanced anchorsC9 = ("11122233") := by
  refine ⟨by decide, by decide, by decide, by with_unfolding_all rfl⟩

/-! ## opSelectProductImages — the server-side bucket partitioner

The deterministic core of `opSelectProductImages`.  The two effectful
collaborators are oracle parameters:

* `features : String → Option FetchedFeatures` — the per-URL fetch:
  `none` models a failed fetch (non-2xx, network error, decode failure);
  `some f` carries the 64-bit dHash value and the color similarity.  The
  color similarity is computed in the source from the image's average
  color via a Euclidean distance and `Math.sqrt` against the mean anchor
  color; being an irrational-valued function of pixel data it is supplied
  by the fetch oracle directly — no claim depends on its exact value.
* `llm : Option Groups` — the parsed external-refinement partition;
  `none` models a throwing call or a response without usable groups.

The prompt assembly and inline-image selection (borderline slicing,
`maxInline`) only shape the request to the external collaborator and are
absorbed into the `llm` oracle. -/

/-- Features of one fetched image. -/
structure FetchedFeatures where
  dhash : Nat
  colorSim : ℚ
deriving DecidableEq, Repr

/-- A three-bucket partition of candidate URLs. -/
structure Groups where
  confident : List String
  semiConfident : List String
  notConfident : List String
deriving DecidableEq, Repr

/-- One of the three buckets. -/
inductive BucketTarget
  | conf
  | semi
  | notc
deriving DecidableEq, Repr

/-- `Number(composite.toFixed(3))`: round to three decimals. -/
def roundTo3 (x : ℚ) : ℚ := ((round (x * 1000) : ℤ) : ℚ) / 1000

/-- The distance part of the composite:
`typeof dist === "number" ? 1 - Math.min(dist, 32) / 32 : 0.25`. -/
def distScore (dist : Option Nat) : ℚ :=
  match dist with
  | some d => 1 - ((Nat.min d 32 : ℕ) : ℚ) / 32
  | none => 1 / 4

/-- `Number(s)` restricted to the integral numerals the pipeline meets;
`none` models NaN, and the empty string is 0. -/
def jsNumberInt (l : List Char) : Option Int :=
  let digitsVal : List Char → Option Nat := fun ds =>
    if ds.isEmpty || !(ds.all isDigitChar) then none
    else some (ds.foldl (fun acc c => 10 * acc + (c.toNat - 48)) 0)
  match l with
  | [] => some 0
  | '-' :: rest => (digitsVal rest).map (fun n => -(n : Int))
  | '+' :: rest => (digitsVal rest).map (fun n => (n : Int))
  | _ => (digitsVal l).map (fun n => (n : Int))

/-- The aspect hint of the enrichment: 0.5 by default, else a step
function of the `w` query parameter. -/
def arHintOf (url : String) : ℚ :=
  match parseUrlChars url.data with
  | none => 1 / 2
  | some m =>
    let wstr := match getParam m "w" with
      | some v => if v.isEmpty then ['0'] else v
      | none => ['0']
    match jsNumberInt wstr with
    | none => 1 / 2
    | some w =>
      if w ≠ 0 then (if 800 ≤ w then 1 else if 560 ≤ w then 8 / 10 else 6 / 10)
      else 1 / 2

/-- One enriched candidate (steps 2 of `opSelectProductImages`). -/
structure Enriched where
  url : String
  dhash : Option Nat
  dist : Option Nat
  colorSim : ℚ
  isEditorial : Bool
  looksLikePackshot : Bool
  arHint : ℚ
  composite : ℚ
deriving DecidableEq, Repr

/-- The per-candidate enrichment: fetched features, minimum hamming
distance to the anchor hashes, URL heuristics and the clamped, rounded
composite score. -/
def enrichCandidate (features : String → Option FetchedFeatures)
    (anchorHashes : List Nat) (url : String) : Enriched :=
  let fetched := features url
  let dist := fetched.map (fun f => minDistanceToAnchors f.dhash anchorHashes)
  let colorSim0 : ℚ := match fetched with
    | some f => f.colorSim
    | none => 0
  let isEditorial := testDashE (lowerChars url.data) ||
    hasAnyL url.data ["editorial", "lookbook", "campaign", "lifestyle", "kids", "baby"]
  let looksLikePackshot :=
    hasAnyL url.data ["/p/", "_p.", "/product", "packshot", "studio"]
  let arHint := arHintOf url
  let urlBias : ℚ := if looksLikePackshot then 15 / 100 else 0
  let editorialPenalty : ℚ := if isEditorial then -(25 / 100) else 0
  let composite := qmax 0 (qmin 1 (45 / 100 * distScore dist +
    35 / 100 * colorSim0 + 15 / 100 * arHint + urlBias + editorialPenalty))
  { url := url, dhash := fetched.map (fun f => f.dhash), dist := dist,
    colorSim := roundTo3 colorSim0, isEditorial := isEditorial,
    looksLikePackshot := looksLikePackshot, arHint := arHint,
    composite := roundTo3 composite }

/-- The rule-based bucket of one enriched candidate (step 3, the relaxed
thresholds of the deployed variant). -/
def seedBucket (e : Enriched) : BucketTarget :=
  let d := e.dist.getD 64
  let s := e.composite
  let highColor := (86 : ℚ) / 100 ≤ e.colorSim
  let nearDist := d ≤ 12
  let medDist := d ≤ 20
  let farButLikely := d ≤ 28 ∧ highColor ∧ e.looksLikePackshot = true ∧
    e.isEditorial = false
  if e.isEditorial = false ∧ e.looksLikePackshot = true ∧
      ((nearDist ∧ (60 : ℚ) / 100 ≤ s) ∨ (medDist ∧ highColor ∧ (55 : ℚ) / 100 ≤ s))
    then BucketTarget.conf
  else if e.isEditorial = false ∧ ((d ≤ 28 ∧ (45 : ℚ) / 100 ≤ s) ∨ farButLikely)
    then BucketTarget.semi
  else BucketTarget.notc

/-- One push of the seeding loop. -/
def seedStep (g : Groups) (e : Enriched) : Groups :=
  match seedBucket e with
  | BucketTarget.conf => { g with confident := g.confident ++ [e.url] }
  | BucketTarget.semi => { g with semiConfident := g.semiConfident ++ [e.url] }
  | BucketTarget.notc => { g with notConfident := g.notConfident ++ [e.url] }

/-- The rule-based pre-buckets. -/
def seedGroups (es : List Enriched) : Groups :=
  es.foldl seedStep ⟨[], [], []⟩

/-- `Set.prototype.add` over the insertion-ordered list model. -/
def setAdd (l : List String) (u : String) : List String :=
  if u ∈ l then l else l ++ [u]

/-- `Set.prototype.delete`. -/
def setDel (l : List String) (u : String) : List String :=
  l.filter (fun x => x ≠ u)

/-- The merge helper `apply(target, urls)`: for every URL of the original
candidate set, delete it from all three buckets and add it to the target. -/
def applyTo (f : Groups) (target : BucketTarget) (allUrls urls : List String) :
    Groups :=
  urls.foldl (fun f u =>
    if u ∈ allUrls then
      let f1 : Groups := ⟨setDel f.confident u, setDel f.semiConfident u,
        setDel f.notConfident u⟩
      match target with
      | BucketTarget.conf => { f1 with confident := setAdd f1.confident u }
      | BucketTarget.semi => { f1 with semiConfident := setAdd f1.semiConfident u }
      | BucketTarget.notc => { f1 with notConfident := setAdd f1.notConfident u }
    else f) f

/-- The hard rule: every anchor URL that is also a candidate is forced
into `confident`. -/
def forceAnchors (f : Groups) (allUrls anchors : List String) : Groups :=
  anchors.foldl (fun f u =>
    if u ∈ allUrls then
      ⟨setAdd f.confident u, setDel f.semiConfident u, setDel f.notConfident u⟩
    else f) f

/-- The placement guard: any candidate in no bucket lands in
`semiConfident`. -/
def fillMissing (f : Groups) (allUrls : List String) : Groups :=
  allUrls.foldl (fun f u =>
    if u ∉ f.confident ∧ u ∉ f.semiConfident ∧ u ∉ f.notConfident then
      { f with semiConfident := setAdd f.semiConfident u }
    else f) f

/-- `scoreMap.get`: the composite of the last enriched entry with the
URL (`new Map` keeps the last value for a duplicated key). -/
def scoreOf (es : List Enriched) (u : String) : ℚ :=
  ((es.map (fun e => (e.url, e.composite))).reverse.find?
    (fun p => p.1 == u)).map (fun p => p.2) |>.getD 0

/-- `distMap.get`: the `dist ?? 64` of the last enriched entry with the
URL. -/
def distOf (es : List Enriched) (u : String) : Nat :=
  ((es.map (fun e => (e.url, e.dist.getD 64))).reverse.find?
    (fun p => p.1 == u)).map (fun p => p.2) |>.getD 64

/-- The deterministic ordering: composite descending, then distance
ascending (`a` strictly before `b`). -/
def orderLt (sc : String → ℚ) (ds : String → Nat) (a b : String) : Prop :=
  sc b < sc a ∨ (sc b = sc a ∧ ds a < ds b)

instance (sc : String → ℚ) (ds : String → Nat) (a b : String) :
    Decidable (orderLt sc ds a b) := by
  unfold orderLt
  infer_instance

/-- Stable insertion for the final ordering. -/
def insertOrd (sc : String → ℚ) (ds : String → Nat) (x : String) :
    List String → List String
  | [] => [x]
  | y :: ys =>
    if orderLt sc ds x y then x :: y :: ys else y :: insertOrd sc ds x ys

/-- Stable sort by the final ordering. -/
def sortOrd (sc : String → ℚ) (ds : String → Nat) (l : List String) :
    List String :=
  l.foldl (fun acc x => insertOrd sc ds x acc) []

/-- The auto-promotion guard: when `confident` is empty, promote the top
one or two URLs, preferring `semiConfident`, else the full set. -/
def autoPromote (f : Groups) (allUrls : List String) (sc : String → ℚ)
    (ds : String → Nat) : Groups :=
  if f.confident.isEmpty then
    let semi := sortOrd sc ds f.semiConfident
    let src := if !semi.isEmpty then semi else sortOrd sc ds allUrls
    let promoted := src.take (Nat.min 2 src.length)
    promoted.foldl (fun f u =>
      ⟨setAdd f.confident u, setDel f.semiConfident u, setDel f.notConfident u⟩) f
  else f

/-- The anchor hashes: the dHash of every anchor (of the at most three
used) whose fetch succeeded. -/
def anchorHashesOf (features : String → Option FetchedFeatures)
    (anchors0 : List String) : List Nat :=
  ((anchors0.take 3).filterMap features).map (fun f => f.dhash)

/-- The enriched candidate list of one run. -/
def enrichedOf (features : String → Option FetchedFeatures)
    (anchors0 candidates : List String) : List Enriched :=
  candidates.map (enrichCandidate features (anchorHashesOf features anchors0))

/-- The original candidate set (`allUrls`). -/
def allUrlsOf (features : String → Option FetchedFeatures)
    (anchors0 candidates : List String) : List String :=
  dedupFirst ((enrichedOf features anchors0 candidates).map (fun e => e.url))

/-- The rule-based buckets as sets (`new Set(groups.…)`). -/
def seededSetsOf (features : String → Option FetchedFeatures)
    (anchors0 candidates : List String) : Groups :=
  let g := seedGroups (enrichedOf features anchors0 candidates)
  ⟨dedupFirst g.confident, dedupFirst g.semiConfident, dedupFirst g.notConfident⟩

/-- The buckets after merging the external refinement's promotions and
demotions. -/
def mergedOf (features : String → Option FetchedFeatures) (llm : Option Groups)
    (anchors0 candidates : List String) : Groups :=
  applyTo (applyTo (applyTo (seededSetsOf features anchors0 candidates)
    BucketTarget.conf (allUrlsOf features anchors0 candidates)
    (llm.getD ⟨[], [], []⟩).confident)
    BucketTarget.semi (allUrlsOf features anchors0 candidates)
    (llm.getD ⟨[], [], []⟩).semiConfident)
    BucketTarget.notc (allUrlsOf features anchors0 candidates)
    (llm.getD ⟨[], [], []⟩).notConfident

/-- Stage 4: anchor forcing, placement guard and auto-promotion on top
of any bucket state. -/
def enforceInvariants (features : String → Option FetchedFeatures)
    (anchors0 candidates : List String) (f : Groups) : Groups :=
  autoPromote
    (fillMissing
      (forceAnchors f (allUrlsOf features anchors0 candidates) (anchors0.take 3))
      (allUrlsOf features anchors0 candidates))
    (allUrlsOf features anchors0 candidates)
    (scoreOf (enrichedOf features anchors0 candidates))
    (distOf (enrichedOf features anchors0 candidates))

/-- Stage 5: the final deterministic ordering of each bucket. -/
def orderBuckets (features : String → Option FetchedFeatures)
    (anchors0 candidates : List String) (f : Groups) : Groups :=
  ⟨sortOrd (scoreOf (enrichedOf features anchors0 candidates))
      (distOf (enrichedOf features anchors0 candidates)) f.confident,
    sortOrd (scoreOf (enrichedOf features anchors0 candidates))
      (distOf (enrichedOf features anchors0 candidates)) f.semiConfident,
    sortOrd (scoreOf (enrichedOf features anchors0 candidates))
      (distOf (enrichedOf features anchors0 candidates)) f.notConfident⟩

/-- The deterministic core of `opSelectProductImages`: anchor features,
candidate enrichment, rule-based seeding, merge of the external
refinement, anchor forcing, placement guard, auto-promotion and final
ordering. -/
def opSelectProductImages (features : String → Option FetchedFeatures)
    (llm : Option Groups) (anchors0 candidates : List String) : Groups :=
  orderBuckets features anchors0 candidates
    (enforceInvariants features anchors0 candidates
      (mergedOf features llm anchors0 candidates))

/-- The degraded pipeline: the external-refinement merge skipped
entirely, stage 4 and the final ordering applied to the rule-based
seeding alone. -/
def opSelectDegraded (features : String → Option FetchedFeatures)
    (anchors0 candidates : List String) : Groups :=
  orderBuckets features anchors0 candidates
    (enforceInvariants features anchors0 candidates
      (seededSetsOf features anchors0 candidates))

/-! ## Set-model and ordering lemmas -/

theorem mem_dedupFirst (l : List String) (u : String) :
    u ∈ dedupFirst l ↔ u ∈ l := by
  have key : ∀ (l acc : List String),
      (u ∈ l.foldl (fun acc u => if u ∈ acc then acc else acc ++ [u]) acc ↔
        u ∈ acc ∨ u ∈ l) := by
    intro l
    induction l with
    | nil => simp
    | cons x rest ih =>
      intro acc
      simp only [List.foldl_cons]
      by_cases hx : x ∈ acc
      · rw [if_pos hx, ih]
        constructor
        · rintro (h | h)
          · exact Or.inl h
          · exact Or.inr (by simp [h])
        · rintro (h | h)
          · exact Or.inl h
          · rcases List.mem_cons.mp h with rfl | h2
            · exact Or.inl hx
            · exact Or.inr h2
      · rw [if_neg hx, ih]
        simp only [List.mem_append, List.mem_singleton, List.mem_cons]
        tauto
  rw [dedupFirst, key]
  simp

theorem nodup_dedupFirst (l : List String) : (dedupFirst l).Nodup := by
  have key : ∀ (l acc : List String), acc.Nodup →
      (l.foldl (fun acc u => if u ∈ acc then acc else acc ++ [u]) acc).Nodup := by
    intro l
    induction l with
    | nil => exact fun acc h => h
    | cons x rest ih =>
      intro acc hacc
      simp only [List.foldl_cons]
      by_cases hx : x ∈ acc
      · rw [if_pos hx]
        exact ih acc hacc
      · rw [if_neg hx]
        refine ih (acc ++ [x]) ?_
        simpa [List.nodup_append] using ⟨hacc, hx⟩
  exact key l [] (by simp)

theorem dedupFirst_ne_nil (l : List String) (h : l ≠ []) : dedupFirst l ≠ [] := by
  cases l with
  | nil => exact absurd rfl h
  | cons x rest =>
    intro hcontra
    have : x ∈ dedupFirst (x :: rest) := (mem_dedupFirst _ _).mpr (by simp)
    rw [hcontra] at this
    exact absurd this (by simp)

theorem mem_setAdd (l : List String) (u v : String) :
    v ∈ setAdd l u ↔ v ∈ l ∨ v = u := by
  unfold setAdd
  by_cases hu : u ∈ l
  · rw [if_pos hu]
    constructor
    · exact Or.inl
    · rintro (h | rfl)
      · exact h
      · exact hu
  · rw [if_neg hu]
    simp

theorem nodup_setAdd (l : List String) (u : String) (h : l.Nodup) :
    (setAdd l u).Nodup := by
  unfold setAdd
  by_cases hu : u ∈ l
  · rw [if_pos hu]
    exact h
  · rw [if_neg hu]
    simpa [List.nodup_append] using ⟨h, hu⟩

theorem mem_setDel (l : List String) (u v : String) :
    v ∈ setDel l u ↔ v ∈ l ∧ v ≠ u := by
  unfold setDel
  simp [List.mem_filter]

theorem nodup_setDel (l : List String) (u : String) (h : l.Nodup) :
    (setDel l u).Nodup := List.Nodup.filter _ h

theorem insertOrd_perm (sc : String → ℚ) (ds : String → Nat) (x : String)
    (l : List String) : (insertOrd sc ds x l).Perm (x :: l) := by
  induction l with
  | nil => exact List.Perm.refl _
  | cons y ys ih =>
    unfold insertOrd
    by_cases hlt : orderLt sc ds x y
    · rw [if_pos hlt]
    · rw [if_neg hlt]
      exact (List.Perm.cons y ih).trans (List.Perm.swap x y ys)

theorem sortOrd_perm (sc : String → ℚ) (ds : String → Nat) (l : List String) :
    (sortOrd sc ds l).Perm l := by
  have key : ∀ (l acc : List String),
      (l.foldl (fun acc x => insertOrd sc ds x acc) acc).Perm (acc ++ l) := by
    intro l
    induction l with
    | nil => simp
    | cons x rest ih =>
      intro acc
      simp only [List.foldl_cons]
      exact ((ih (insertOrd sc ds x acc)).trans
        (List.Perm.append_right rest (insertOrd_perm sc ds x acc))).trans
        (List.perm_middle).symm
  simpa using key l []

theorem mem_sortOrd (sc : String → ℚ) (ds : String → Nat) (l : List String)
    (u : String) : u ∈ sortOrd sc ds l ↔ u ∈ l :=
  (sortOrd_perm sc ds l).mem_iff

theorem nodup_sortOrd (sc : String → ℚ) (ds : String → Nat) (l : List String)
    (h : l.Nodup) : (sortOrd sc ds l).Nodup :=
  ((sortOrd_perm sc ds l).nodup_iff).mpr h

/-- Projection of one bucket. -/
def Groups.bucket (g : Groups) : BucketTarget → List String
  | BucketTarget.conf => g.confident
  | BucketTarget.semi => g.semiConfident
  | BucketTarget.notc => g.notConfident

theorem bucket_seedStep (g : Groups) (e : Enriched) (t : BucketTarget) :
    (seedStep g e).bucket t =
      if seedBucket e = t then g.bucket t ++ [e.url] else g.bucket t := by
  unfold seedStep
  cases hb : seedBucket e <;> cases t <;> simp [Groups.bucket]

theorem seedGroups_mem (es : List Enriched) (t : BucketTarget) (u : String) :
    u ∈ (seedGroups es).bucket t ↔
      ∃ e ∈ es, e.url = u ∧ seedBucket e = t := by
  have key : ∀ (es : List Enriched) (g : Groups),
      (u ∈ (es.foldl seedStep g).bucket t ↔
        u ∈ g.bucket t ∨ ∃ e ∈ es, e.url = u ∧ seedBucket e = t) := by
    intro es
    induction es with
    | nil => simp
    | cons e rest ih =>
      intro g
      simp only [List.foldl_cons]
      rw [ih (seedStep g e)]
      rw [bucket_seedStep]
      by_cases hb : seedBucket e = t
      · rw [if_pos hb]
        simp only [List.mem_append, List.mem_singleton, List.mem_cons,
          List.not_mem_nil, or_false]
        constructor
        · rintro ((h | rfl) | ⟨e2, he2, hu2, ht2⟩)
          · exact Or.inl h
          · exact Or.inr ⟨e, Or.inl rfl, rfl, hb⟩
          · exact Or.inr ⟨e2, Or.inr he2, hu2, ht2⟩
        · rintro (h | ⟨e2, (rfl | he2), hu2, ht2⟩)
          · exact Or.inl (Or.inl h)
          · exact Or.inl (Or.inr hu2.symm)
          · exact Or.inr ⟨e2, he2, hu2, ht2⟩
      · rw [if_neg hb]
        simp only [List.mem_cons]
        constructor
        · rintro (h | ⟨e2, he2, hu2, ht2⟩)
          · exact Or.inl h
          · exact Or.inr ⟨e2, by simp [he2], hu2, ht2⟩
        · rintro (h | ⟨e2, (rfl | he2), hu2, ht2⟩)
          · exact Or.inl h
          · exact absurd ht2 hb
          · exact Or.inr ⟨e2, he2, hu2, ht2⟩
  rw [seedGroups, key]
  cases t <;> simp [Groups.bucket]

/-! ## The partition invariant -/

/-- Pairwise-disjoint duplicate-free buckets whose union is exactly the
candidate set. -/
def PartInv (f : Groups) (all : List String) : Prop :=
  f.confident.Nodup ∧ f.semiConfident.Nodup ∧ f.notConfident.Nodup ∧
  (∀ u, u ∈ f.confident → u ∉ f.semiConfident ∧ u ∉ f.notConfident) ∧
  (∀ u, u ∈ f.semiConfident → u ∉ f.notConfident) ∧
  (∀ u, (u ∈ f.confident ∨ u ∈ f.semiConfident ∨ u ∈ f.notConfident) ↔ u ∈ all)

theorem enrichCandidate_url (features : String → Option FetchedFeatures)
    (anchorHashes : List Nat) (u : String) :
    (enrichCandidate features anchorHashes u).url = u := rfl

theorem enrichedOf_url (features : String → Option FetchedFeatures)
    (anchors0 cands : List String) :
    (enrichedOf features anchors0 cands).map (fun e => e.url) = cands := by
  unfold enrichedOf
  rw [List.map_map]
  have h : ((fun e : Enriched => e.url) ∘
      enrichCandidate features (anchorHashesOf features anchors0)) = id :=
    funext fun u => rfl
  rw [h, List.map_id]

theorem allUrlsOf_eq (features : String → Option FetchedFeatures)
    (anchors0 cands : List String) :
    allUrlsOf features anchors0 cands = dedupFirst cands := by
  unfold allUrlsOf
  rw [enrichedOf_url]

theorem seededSets_mem (features : String → Option FetchedFeatures)
    (anchors0 cands : List String) (t : BucketTarget) (u : String) :
    u ∈ (seededSetsOf features anchors0 cands).bucket t ↔
      u ∈ cands ∧
        seedBucket (enrichCandidate features (anchorHashesOf features anchors0) u)
          = t := by
  have hded : (seededSetsOf features anchors0 cands).bucket t =
      dedupFirst ((seedGroups (enrichedOf features anchors0 cands)).bucket t) := by
    cases t <;> rfl
  rw [hded, mem_dedupFirst, seedGroups_mem]
  unfold enrichedOf
  constructor
  · rintro ⟨e, he, hurl, ht⟩
    obtain ⟨c, hc, rfl⟩ := List.mem_map.mp he
    have hcu : c = u := hurl
    subst hcu
    exact ⟨hc, ht⟩
  · rintro ⟨hu, ht⟩
    exact ⟨enrichCandidate features (anchorHashesOf features anchors0) u,
      List.mem_map.mpr ⟨u, hu, rfl⟩, rfl, ht⟩

theorem partInv_seeded (features : String → Option FetchedFeatures)
    (anchors0 cands : List String) :
    PartInv (seededSetsOf features anchors0 cands)
      (allUrlsOf features anchors0 cands) := by
  have hconf := seededSets_mem features anchors0 cands BucketTarget.conf
  have hsemi := seededSets_mem features anchors0 cands BucketTarget.semi
  have hnotc := seededSets_mem features anchors0 cands BucketTarget.notc
  have hb : ∀ u, u ∈ (seededSetsOf features anchors0 cands).confident ↔
      (u ∈ (seededSetsOf features anchors0 cands).bucket BucketTarget.conf) :=
    fun u => Iff.rfl
  refine ⟨nodup_dedupFirst _, nodup_dedupFirst _, nodup_dedupFirst _, ?_, ?_, ?_⟩
  · intro u hu
    have h1 := (hconf u).mp hu
    constructor
    · intro hu2
      have h2 := (hsemi u).mp hu2
      rw [h1.2] at h2
      exact absurd h2.2 (by simp)
    · intro hu2
      have h2 := (hnotc u).mp hu2
      rw [h1.2] at h2
      exact absurd h2.2 (by simp)
  · intro u hu
    have h1 := (hsemi u).mp hu
    intro hu2
    have h2 := (hnotc u).mp hu2
    rw [h1.2] at h2
    exact absurd h2.2 (by simp)
  · intro u
    rw [allUrlsOf_eq, mem_dedupFirst]
    constructor
    · rintro (h | h | h)
      · exact ((hconf u).mp h).1
      · exact ((hsemi u).mp h).1
      · exact ((hnotc u).mp h).1
    · intro hu
      cases hbk : seedBucket (enrichCandidate features
          (anchorHashesOf features anchors0) u) with
      | conf => exact Or.inl ((hconf u).mpr ⟨hu, hbk⟩)
      | semi => exact Or.inr (Or.inl ((hsemi u).mpr ⟨hu, hbk⟩))
      | notc => exact Or.inr (Or.inr ((hnotc u).mpr ⟨hu, hbk⟩))

/-- Moving one candidate URL into a single bucket preserves the
partition invariant; the abstract shape shared by the merge, the anchor
forcing and the auto-promotion. -/
theorem partInv_of_move (f f2 : Groups) (all : List String) (u : String)
    (hu : u ∈ all) (h : PartInv f all)
    (hconf : ∀ v, v ≠ u → (v ∈ f2.confident ↔ v ∈ f.confident))
    (hsemi : ∀ v, v ≠ u → (v ∈ f2.semiConfident ↔ v ∈ f.semiConfident))
    (hnotc : ∀ v, v ≠ u → (v ∈ f2.notConfident ↔ v ∈ f.notConfident))
    (hu1 : u ∈ f2.confident ∨ u ∈ f2.semiConfident ∨ u ∈ f2.notConfident)
    (hu2 : u ∈ f2.confident → u ∉ f2.semiConfident ∧ u ∉ f2.notConfident)
    (hu3 : u ∈ f2.semiConfident → u ∉ f2.notConfident)
    (hn : f2.confident.Nodup ∧ f2.semiConfident.Nodup ∧ f2.notConfident.Nodup) :
    PartInv f2 all := by
  obtain ⟨_, _, _, hdis1, hdis2, hun⟩ := h
  refine ⟨hn.1, hn.2.1, hn.2.2, ?_, ?_, ?_⟩
  · intro v hv
    by_cases hvu : v = u
    · subst hvu
      exact hu2 hv
    · have hv0 := (hconf v hvu).mp hv
      have := hdis1 v hv0
      exact ⟨fun hc => this.1 ((hsemi v hvu).mp hc),
        fun hc => this.2 ((hnotc v hvu).mp hc)⟩
  · intro v hv
    by_cases hvu : v = u
    · subst hvu
      exact hu3 hv
    · have hv0 := (hsemi v hvu).mp hv
      exact fun hc => hdis2 v hv0 ((hnotc v hvu).mp hc)
  · intro v
    by_cases hvu : v = u
    · subst hvu
      exact ⟨fun _ => hu, fun _ => hu1⟩
    · rw [hconf v hvu, hsemi v hvu, hnotc v hvu]
      exact hun v

theorem partInv_step_conf (f : Groups) (all : List String) (u : String)
    (hu : u ∈ all) (h : PartInv f all) :
    PartInv ⟨setAdd (setDel f.confident u) u, setDel f.semiConfident u,
      setDel f.notConfident u⟩ all := by
  refine partInv_of_move f _ all u hu h ?_ ?_ ?_ ?_ ?_ ?_ ?_
  · intro v hv
    simp [mem_setAdd, mem_setDel, hv]
  · intro v hv
    simp [mem_setDel, hv]
  · intro v hv
    simp [mem_setDel, hv]
  · exact Or.inl (by simp [mem_setAdd])
  · intro _
    simp [mem_setDel]
  · intro hcontra
    simp [mem_setDel] at hcontra
  · exact ⟨nodup_setAdd _ _ (nodup_setDel _ _ h.1), nodup_setDel _ _ h.2.1,
      nodup_setDel _ _ h.2.2.1⟩

theorem partInv_step_semi (f : Groups) (all : List String) (u : String)
    (hu : u ∈ all) (h : PartInv f all) :
    PartInv ⟨setDel f.confident u, setAdd (setDel f.semiConfident u) u,
      setDel f.notConfident u⟩ all := by
  refine partInv_of_move f _ all u hu h ?_ ?_ ?_ ?_ ?_ ?_ ?_
  · intro v hv
    simp [mem_setDel, hv]
  · intro v hv
    simp [mem_setAdd, mem_setDel, hv]
  · intro v hv
    simp [mem_setDel, hv]
  · exact Or.inr (Or.inl (by simp [mem_setAdd]))
  · intro hcontra
    simp [mem_setDel] at hcontra
  · intro _
    simp [mem_setDel]
  · exact ⟨nodup_setDel _ _ h.1, nodup_setAdd _ _ (nodup_setDel _ _ h.2.1),
      nodup_setDel _ _ h.2.2.1⟩

theorem partInv_step_notc (f : Groups) (all : List String) (u : String)
    (hu : u ∈ all) (h : PartInv f all) :
    PartInv ⟨setDel f.confident u, setDel f.semiConfident u,
      setAdd (setDel f.notConfident u) u⟩ all := by
  refine partInv_of_move f _ all u hu h ?_ ?_ ?_ ?_ ?_ ?_ ?_
  · intro v hv
    simp [mem_setDel, hv]
  · intro v hv
    simp [mem_setDel, hv]
  · intro v hv
    simp [mem_setAdd, mem_setDel, hv]
  · exact Or.inr (Or.inr (by simp [mem_setAdd]))
  · intro hcontra
    simp [mem_setDel] at hcontra
  · intro hcontra
    simp [mem_setDel] at hcontra
  · exact ⟨nodup_setDel _ _ h.1, nodup_setDel _ _ h.2.1,
      nodup_setAdd _ _ (nodup_setDel _ _ h.2.2.1)⟩

theorem partInv_step_keep (f : Groups) (all : List String) (u : String)
    (hu : u ∈ all) (h : PartInv f all) :
    PartInv ⟨setAdd f.confident u, setDel f.semiConfident u,
      setDel f.notConfident u⟩ all := by
  refine partInv_of_move f _ all u hu h ?_ ?_ ?_ ?_ ?_ ?_ ?_
  · intro v hv
    simp [mem_setAdd, hv]
  · intro v hv
    simp [mem_setDel, hv]
  · intro v hv
    simp [mem_setDel, hv]
  · exact Or.inl (by simp [mem_setAdd])
  · intro _
    simp [mem_setDel]
  · intro hcontra
    simp [mem_setDel] at hcontra
  · exact ⟨nodup_setAdd _ _ h.1, nodup_setDel _ _ h.2.1,
      nodup_setDel _ _ h.2.2.1⟩

theorem partInv_applyTo (f : Groups) (t : BucketTarget) (all urls : List String)
    (h : PartInv f all) : PartInv (applyTo f t all urls) all := by
  induction urls generalizing f with
  | nil => exact h
  | cons u rest ih =>
    unfold applyTo
    simp only [List.foldl_cons]
    by_cases hu : u ∈ all
    · rw [if_pos hu]
      refine ih _ ?_
      cases t
      · exact partInv_step_conf f all u hu h
      · exact partInv_step_semi f all u hu h
      · exact partInv_step_notc f all u hu h
    · rw [if_neg hu]
      exact ih f h

theorem partInv_forceAnchors (f : Groups) (all anchors : List String)
    (h : PartInv f all) : PartInv (forceAnchors f all anchors) all := by
  induction anchors generalizing f with
  | nil => exact h
  | cons u rest ih =>
    unfold forceAnchors
    simp only [List.foldl_cons]
    by_cases hu : u ∈ all
    · rw [if_pos hu]
      exact ih _ (partInv_step_keep f all u hu h)
    · rw [if_neg hu]
      exact ih f h

theorem fillMissing_of_inv (f : Groups) (all : List String) (h : PartInv f all) :
    fillMissing f all = f := by
  unfold fillMissing
  have key : ∀ (l : List String), (∀ u ∈ l, u ∈ all) →
      l.foldl (fun f u =>
        if u ∉ f.confident ∧ u ∉ f.semiConfident ∧ u ∉ f.notConfident then
          { f with semiConfident := setAdd f.semiConfident u }
        else f) f = f := by
    intro l
    induction l with
    | nil => intro _; rfl
    | cons u rest ih =>
      intro hsub
      simp only [List.foldl_cons]
      have humem : u ∈ f.confident ∨ u ∈ f.semiConfident ∨ u ∈ f.notConfident :=
        (h.2.2.2.2.2 u).mpr (hsub u (by simp))
      rw [if_neg (by tauto)]
      exact ih (fun v hv => hsub v (by simp [hv]))
  exact key all (fun u hu => hu)

theorem foldKeep_partInv (all : List String) (us : List String) (f : Groups)
    (hsub : ∀ u ∈ us, u ∈ all) (h : PartInv f all) :
    PartInv (us.foldl (fun f u => ⟨setAdd f.confident u,
      setDel f.semiConfident u, setDel f.notConfident u⟩) f) all := by
  induction us generalizing f with
  | nil => exact h
  | cons u rest ih =>
    simp only [List.foldl_cons]
    exact ih _ (fun v hv => hsub v (by simp [hv]))
      (partInv_step_keep f all u (hsub u (by simp)) h)

theorem foldKeep_conf_mono (us : List String) (f : Groups) (v : String)
    (hv : v ∈ f.confident) :
    v ∈ (us.foldl (fun f u => ⟨setAdd f.confident u,
      setDel f.semiConfident u, setDel f.notConfident u⟩) f).confident := by
  induction us generalizing f with
  | nil => exact hv
  | cons u rest ih =>
    simp only [List.foldl_cons]
    exact ih _ ((mem_setAdd _ _ _).mpr (Or.inl hv))

theorem partInv_autoPromote (f : Groups) (all : List String) (sc : String → ℚ)
    (ds : String → Nat) (h : PartInv f all) :
    PartInv (autoPromote f all sc ds) all := by
  unfold autoPromote
  by_cases hc : f.confident.isEmpty = true
  · rw [if_pos hc]
    refine foldKeep_partInv all _ f ?_ h
    intro u hu
    have husrc : u ∈ (if !(sortOrd sc ds f.semiConfident).isEmpty then
        sortOrd sc ds f.semiConfident else sortOrd sc ds all) :=
      List.take_subset _ _ hu
    by_cases hsemi : (!(sortOrd sc ds f.semiConfident).isEmpty) = true
    · rw [if_pos hsemi] at husrc
      have husemi : u ∈ f.semiConfident := (mem_sortOrd _ _ _ _).mp husrc
      exact (h.2.2.2.2.2 u).mp (Or.inr (Or.inl husemi))
    · rw [if_neg hsemi] at husrc
      exact (mem_sortOrd _ _ _ _).mp husrc
  · rw [if_neg hc]
    exact h

theorem partInv_orderBuckets (features : String → Option FetchedFeatures)
    (anchors0 cands : List String) (f : Groups) (all : List String)
    (h : PartInv f all) :
    PartInv (orderBuckets features anchors0 cands f) all := by
  obtain ⟨h1, h2, h3, h4, h5, h6⟩ := h
  unfold orderBuckets
  refine ⟨nodup_sortOrd _ _ _ h1, nodup_sortOrd _ _ _ h2, nodup_sortOrd _ _ _ h3,
    ?_, ?_, ?_⟩
  · intro u hu
    have hu0 := (mem_sortOrd _ _ _ _).mp hu
    have := h4 u hu0
    exact ⟨fun hc => this.1 ((mem_sortOrd _ _ _ _).mp hc),
      fun hc => this.2 ((mem_sortOrd _ _ _ _).mp hc)⟩
  · intro u hu
    have hu0 := (mem_sortOrd _ _ _ _).mp hu
    exact fun hc => h5 u hu0 ((mem_sortOrd _ _ _ _).mp hc)
  · intro u
    rw [mem_sortOrd, mem_sortOrd, mem_sortOrd]
    exact h6 u

/-- The partition invariant holds for the final output of every run. -/
theorem opSelect_partInv (features : String → Option FetchedFeatures)
    (llm : Option Groups) (anchors0 cands : List String) :
    PartInv (opSelectProductImages features llm anchors0 cands)
      (allUrlsOf features anchors0 cands) := by
  have h0 := partInv_seeded features anchors0 cands
  have h1 : PartInv (mergedOf features llm anchors0 cands)
      (allUrlsOf features anchors0 cands) := by
    unfold mergedOf
    exact partInv_applyTo _ _ _ _ (partInv_applyTo _ _ _ _
      (partInv_applyTo _ _ _ _ h0))
  have h2 : PartInv (enforceInvariants features anchors0 cands
      (mergedOf features llm anchors0 cands))
      (allUrlsOf features anchors0 cands) := by
    unfold enforceInvariants
    have hf := partInv_forceAnchors _ _ (anchors0.take 3) h1
    rw [fillMissing_of_inv _ _ hf]
    exact partInv_autoPromote _ _ _ _ hf
  exact partInv_orderBuckets features anchors0 cands _ _ h2

/-- C1: in every run of the bucket partitioner — any fetch outcomes, any
external-refinement response, any anchors — the three returned buckets
are duplicate-free and pairwise disjoint, every input candidate URL lands
in exactly one bucket (none omitted, none duplicated across buckets), and
the buckets' union as a set of normalized URLs equals the
normalized-deduplicated form of the input candidate set. -/
theorem opSelect_partition_complete (features : String → Option FetchedFeatures)
    (llm : Option Groups) (anchors0 cands : List String) :
    ((opSelectProductImages features llm anchors0 cands).confident.Nodup ∧
      (opSelectProductImages features llm anchors0 cands).semiConfident.Nodup ∧
      (opSelectProductImages features llm anchors0 cands).notConfident.Nodup) ∧
    (∀ u, u ∈ (opSelectProductImages features llm anchors0 cands).confident →
      u ∉ (opSelectProductImages features llm anchors0 cands).semiConfident ∧
      u ∉ (opSelectProductImages features llm anchors0 cands).notConfident) ∧
    (∀ u, u ∈ (opSelectProductImages features llm anchors0 cands).semiConfident →
      u ∉ (opSelectProductImages features llm anchors0 cands).notConfident) ∧
    (∀ u, (u ∈ (opSelectProductImages features llm anchors0 cands).confident ∨
      u ∈ (opSelectProductImages features llm anchors0 cands).semiConfident ∨
      u ∈ (opSelectProductImages features llm anchors0 cands).notConfident) ↔
      u ∈ cands) ∧
    (∀ v, (∃ u, (u ∈ (opSelectProductImages features llm anchors0 cands).confident ∨
        u ∈ (opSelectProductImages features llm anchors0 cands).semiConfident ∨
        u ∈ (opSelectProductImages features llm anchors0 cands).notConfident) ∧
        normalizeForDedupe u = v) ↔ ∃ u ∈ cands, normalizeForDedupe u = v) := by
  obtain ⟨h1, h2, h3, h4, h5, h6⟩ :=
    opSelect_partInv features llm anchors0 cands
  have h6b : ∀ u, (u ∈ (opSelectProductImages features llm anchors0 cands).confident ∨
      u ∈ (opSelectProductImages features llm anchors0 cands).semiConfident ∨
      u ∈ (opSelectProductImages features llm anchors0 cands).notConfident) ↔
      u ∈ cands := by
    intro u
    rw [h6 u, allUrlsOf_eq, mem_dedupFirst]
  refine ⟨⟨h1, h2, h3⟩, h4, h5, h6b, ?_⟩
  intro v
  constructor
  · rintro ⟨u, hu, hnorm⟩
    exact ⟨u, (h6b u).mp hu, hnorm⟩
  · rintro ⟨u, hu, hnorm⟩
    exact ⟨u, (h6b u).mpr hu, hnorm⟩

/-- Concrete instantiation of C1: in a single-candidate run the candidate
is auto-promoted to `confident` and is in neither other bucket. -/
theorem opSelect_partition_complete_witness :
    ("https://x.com/c1.jpg") ∉
      (opSelectProductImages (fun _ => none) none []
        [("https://x.com/c1.jpg")]).semiConfident ∧
    ("https://x.com/c1.jpg") ∉
      (opSelectProductImages (fun _ => none) none []
        [("https://x.com/c1.jpg")]).notConfident := by
  have hmem : ("https://x.com/c1.jpg") ∈
      (opSelectProductImages (fun _ => none) none []
        [("https://x.com/c1.jpg")]).confident := by
    have heq : (opSelectProductImages (fun _ => none) none []
        [("https://x.com/c1.jpg")]).confident = [("https://x.com/c1.jpg")] := by
      with_unfolding_all rfl
    rw [heq]
    exact List.mem_singleton.mpr rfl
  exact (opSelect_partition_complete (fun _ => none) none []
    [("https://x.com/c1.jpg")]).2.1 ("https://x.com/c1.jpg") hmem

/-! ## Claim C2 — non-empty guarantee -/

theorem promoteFold_conf_ne (f : Groups) (src : List String) (hsrc : src ≠ []) :
    ((src.take (Nat.min 2 src.length)).foldl (fun f u =>
      ⟨setAdd f.confident u, setDel f.semiConfident u,
        setDel f.notConfident u⟩) f).confident ≠ [] := by
  cases src with
  | nil => exact absurd rfl hsrc
  | cons s rest =>
    have hm : Nat.min 2 (rest.length + 1) = Nat.min 1 rest.length + 1 := by
      rcases Nat.le_total 1 rest.length with h | h
      · have h1 : Nat.min 2 (rest.length + 1) = 2 := Nat.min_eq_left (by omega)
        have h2 : Nat.min 1 rest.length = 1 := Nat.min_eq_left h
        rw [h1, h2]
      · have h1 : Nat.min 2 (rest.length + 1) = rest.length + 1 :=
          Nat.min_eq_right (by omega)
        have h2 : Nat.min 1 rest.length = rest.length := Nat.min_eq_right h
        rw [h1, h2]
    rw [List.length_cons, hm, List.take_succ_cons]
    simp only [List.foldl_cons]
    exact List.ne_nil_of_mem (foldKeep_conf_mono _ _ s
      ((mem_setAdd _ _ _).mpr (Or.inr rfl)))

theorem autoPromote_conf_ne (f : Groups) (all : List String) (sc : String → ℚ)
    (ds : String → Nat) (hall : all ≠ []) :
    (autoPromote f all sc ds).confident ≠ [] := by
  unfold autoPromote
  by_cases hc : f.confident.isEmpty = true
  · rw [if_pos hc]
    apply promoteFold_conf_ne
    by_cases hsemi : (!(sortOrd sc ds f.semiConfident).isEmpty) = true
    · rw [if_pos hsemi]
      simpa [List.isEmpty_iff] using hsemi
    · rw [if_neg hsemi]
      intro hcon
      have hperm := sortOrd_perm sc ds all
      rw [hcon] at hperm
      exact hall hperm.symm.eq_nil
  · rw [if_neg hc]
    simpa [List.isEmpty_iff] using hc

/-- C2: for every non-empty candidate list — any fetch outcomes, any
external-refinement response, any anchors — the confident bucket of the
final partition is non-empty (auto-promotion from `semiConfident`, or
from the full set, guarantees a best-guess set). -/
theorem opSelect_nonempty_guarantee (features : String → Option FetchedFeatures)
    (llm : Option Groups) (anchors0 cands : List String) (h : cands ≠ []) :
    (opSelectProductImages features llm anchors0 cands).confident ≠ [] := by
  have hall : allUrlsOf features anchors0 cands ≠ [] := by
    rw [allUrlsOf_eq]
    exact dedupFirst_ne_nil _ h
  have hconf : (enforceInvariants features anchors0 cands
      (mergedOf features llm anchors0 cands)).confident ≠ [] := by
    unfold enforceInvariants
    exact autoPromote_conf_ne _ _ _ _ hall
  intro hcon
  apply hconf
  have hperm := sortOrd_perm (scoreOf (enrichedOf features anchors0 cands))
    (distOf (enrichedOf features anchors0 cands))
    (enforceInvariants features anchors0 cands
      (mergedOf features llm anchors0 cands)).confident
  have : (opSelectProductImages features llm anchors0 cands).confident =
      sortOrd (scoreOf (enrichedOf features anchors0 cands))
        (distOf (enrichedOf features anchors0 cands))
        (enforceInvariants features anchors0 cands
          (mergedOf features llm anchors0 cands)).confident := rfl
  rw [this] at hcon
  rw [hcon] at hperm
  exact hperm.symm.eq_nil

/-- Concrete instantiation of C2 on a one-candidate run with every fetch
failing. -/
theorem opSelect_nonempty_guarantee_witness :
    (opSelectProductImages (fun _ => none) none []
      [("https://x.com/c1.jpg")]).confident ≠ [] :=
  opSelect_nonempty_guarantee (fun _ => none) none []
    [("https://x.com/c1.jpg")] (by decide)

/-! ## Claim C3 — anchor force-inclusion -/

theorem forceAnchors_conf_mono (f : Groups) (all anchors : List String)
    (v : String) (hv : v ∈ f.confident) :
    v ∈ (forceAnchors f all anchors).confident := by
  induction anchors generalizing f with
  | nil => exact hv
  | cons a rest ih =>
    unfold forceAnchors
    simp only [List.foldl_cons]
    by_cases ha : a ∈ all
    · rw [if_pos ha]
      exact ih _ ((mem_setAdd _ _ _).mpr (Or.inl hv))
    · rw [if_neg ha]
      exact ih _ hv

theorem forceAnchors_mem (f : Groups) (all anchors : List String) (u : String)
    (hu : u ∈ anchors) (hall : u ∈ all) :
    u ∈ (forceAnchors f all anchors).confident := by
  induction anchors generalizing f with
  | nil => exact absurd hu (by simp)
  | cons a rest ih =>
    unfold forceAnchors
    simp only [List.foldl_cons]
    rcases List.mem_cons.mp hu with rfl | hu2
    · rw [if_pos hall]
      exact forceAnchors_conf_mono _ _ _ _ ((mem_setAdd _ _ _).mpr (Or.inr rfl))
    · by_cases ha : a ∈ all
      · rw [if_pos ha]
        exact ih _ hu2
      · rw [if_neg ha]
        exact ih _ hu2

theorem fillMissing_confident (f : Groups) (all : List String) :
    (fillMissing f all).confident = f.confident := by
  unfold fillMissing
  induction all generalizing f with
  | nil => rfl
  | cons u rest ih =>
    simp only [List.foldl_cons]
    by_cases hg : u ∉ f.confident ∧ u ∉ f.semiConfident ∧ u ∉ f.notConfident
    · rw [if_pos hg]
      exact ih _
    · rw [if_neg hg]
      exact ih f

theorem autoPromote_of_ne (f : Groups) (all : List String) (sc : String → ℚ)
    (ds : String → Nat) (h : f.confident ≠ []) :
    autoPromote f all sc ds = f := by
  unfold autoPromote
  rw [if_neg (by simpa [List.isEmpty_iff] using h)]

/-- C3 as amended: an anchor URL among the first three anchors (the at
most three the partitioner uses) that literally appears as a candidate is
always in the confident bucket, regardless of fetch outcomes, rule-based
seeding or the external refinement's reassignment. -/
theorem opSelect_anchor_forced (features : String → Option FetchedFeatures)
    (llm : Option Groups) (anchors0 cands : List String) (u : String)
    (hu : u ∈ anchors0.take 3) (hc : u ∈ cands) :
    u ∈ (opSelectProductImages features llm anchors0 cands).confident := by
  have hall : u ∈ allUrlsOf features anchors0 cands := by
    rw [allUrlsOf_eq, mem_dedupFirst]
    exact hc
  have h4 : u ∈ (forceAnchors (mergedOf features llm anchors0 cands)
      (allUrlsOf features anchors0 cands) (anchors0.take 3)).confident :=
    forceAnchors_mem _ _ _ _ hu hall
  have h5 : u ∈ (fillMissing (forceAnchors (mergedOf features llm anchors0 cands)
      (allUrlsOf features anchors0 cands) (anchors0.take 3))
      (allUrlsOf features anchors0 cands)).confident := by
    rw [fillMissing_confident]
    exact h4
  have h6 : enforceInvariants features anchors0 cands
      (mergedOf features llm anchors0 cands) =
      fillMissing (forceAnchors (mergedOf features llm anchors0 cands)
        (allUrlsOf features anchors0 cands) (anchors0.take 3))
        (allUrlsOf features anchors0 cands) := by
    unfold enforceInvariants
    exact autoPromote_of_ne _ _ _ _ (List.ne_nil_of_mem h5)
  have hfinal : (opSelectProductImages features llm anchors0 cands).confident =
      sortOrd (scoreOf (enrichedOf features anchors0 cands))
        (distOf (enrichedOf features anchors0 cands))
        (enforceInvariants features anchors0 cands
          (mergedOf features llm anchors0 cands)).confident := rfl
  rw [hfinal, mem_sortOrd, h6]
  exact h5

/-- Concrete instantiation of the amended C3. -/
theorem opSelect_anchor_forced_witness :
    ("https://x.com/a1.jpg") ∈
      (opSelectProductImages (fun _ => none) none [("https://x.com/a1.jpg")]
        [("https://x.com/a1.jpg"), ("https://x.com/c2.jpg")]).confident :=
  opSelect_anchor_forced (fun _ => none) none [("https://x.com/a1.jpg")]
    [("https://x.com/a1.jpg"), ("https://x.com/c2.jpg")]
    ("https://x.com/a1.jpg") (by decide) (by decide)

/-- The anchor list of the C3 counterexample: four anchors, the fourth
beyond the `slice(0, 3)` cut. -/
def anchorsCex : List String :=
  ["https://x.com/a1.jpg", "https://x.com/a2.jpg", "https://x.com/a3.jpg",
    "https://x.com/a4-x.jpg"]

/-- The candidates of the C3 counterexample: the fourth anchor plus one
other candidate the external refinement promotes. -/
def candsCex : List String :=
  ["https://x.com/a4-x.jpg", "https://x.com/c1.jpg"]

/-- The external refinement of the C3 counterexample promotes only the
non-anchor candidate. -/
def llmCex : Option Groups := some ⟨["https://x.com/c1.jpg"], [], []⟩

/-- Counterexample to C3 as stated: an anchor URL (the fourth of the
anchor set) literally appears as a candidate, yet the final partition
leaves it outside `confident` — only the first three anchors are forced. -/
theorem opSelect_anchor_forced_counterexample :
    ("https://x.com/a4-x.jpg") ∈ anchorsCex ∧
    ("https://x.com/a4-x.jpg") ∈ candsCex ∧
    ("https://x.com/a4-x.jpg") ∉
      (opSelectProductImages (fun _ => none) llmCex anchorsCex candsCex).confident := by
  refine ⟨by decide, by decide, ?_⟩
  have heq : (opSelectProductImages (fun _ => none) llmCex anchorsCex
      candsCex).confident = [("https://x.com/c1.jpg")] := by
    with_unfolding_all rfl
  rw [heq]
  decide

/-! ## Claim C4 — degradation on external-refinement failure -/

/-- C4 as amended: when the external refinement call throws or returns
no usable groups, the merge stage is skipped entirely — the returned
partition equals the degraded pipeline, i.e. stage 4 (anchor forcing,
placement guard, auto-promotion) and the final ordering applied directly
to the stage-1 rule-based seeding, with no merge attempted. -/
theorem opSelect_llm_failure_degrades (features : String → Option FetchedFeatures)
    (anchors0 cands : List String) :
    opSelectProductImages features none anchors0 cands =
      opSelectDegraded features anchors0 cands := rfl

/-- Counterexample to C4 as stated: with every fetch failing and the
external call throwing, a single non-packshot candidate is seeded
`notConfident`, but the returned partition has it in `confident`
(auto-promotion) — the returned partition is not the stage-1 seeding. -/
theorem opSelect_degradation_counterexample :
    (opSelectProductImages (fun _ => none) none []
      [("https://x.com/c1.jpg")]).confident = [("https://x.com/c1.jpg")] ∧
    (seedGroups (enrichedOf (fun _ => none) []
      [("https://x.com/c1.jpg")])).confident = [] ∧
    (seedGroups (enrichedOf (fun _ => none) []
      [("https://x.com/c1.jpg")])).notConfident = [("https://x.com/c1.jpg")] ∧
    (opSelectProductImages (fun _ => none) none []
      [("https://x.com/c1.jpg")]).notConfident = [] := by
  refine ⟨?_, ?_, ?_, ?_⟩
  · with_unfolding_all rfl
  · with_unfolding_all rfl
  · with_unfolding_all rfl
  · with_unfolding_all rfl

/-! ## Claim C10 — minimum distance to anchors -/

/-- C10: `minDistanceToAnchors` returns 64 on an empty anchor list and
otherwise the minimum hamming distance to the anchors; in a run where no
anchor could be fetched, every successfully fetched candidate receives
distance 64, whose distance term `0.45 * distScore` contributes 0 to the
composite. -/
theorem minDistanceToAnchors_spec :
    (∀ d : Nat, minDistanceToAnchors d [] = 64) ∧
    (∀ (d : Nat) (l : List Nat), l ≠ [] →
      (∃ a ∈ l, minDistanceToAnchors d l = hammingNat d a) ∧
      (∀ a ∈ l, minDistanceToAnchors d l ≤ hammingNat d a)) ∧
    (∀ (features : String → Option FetchedFeatures) (anchors0 : List String)
      (u : String) (f : FetchedFeatures),
      (∀ a ∈ anchors0.take 3, features a = none) → features u = some f →
      (enrichCandidate features (anchorHashesOf features anchors0) u).dist =
        some 64) ∧
    (45 : ℚ) / 100 * distScore (some 64) = 0 := by
  refine ⟨fun d => rfl, ?_, ?_, ?_⟩
  · intro d l hl
    cases l with
    | nil => exact absurd rfl hl
    | cons a rest =>
      constructor
      · rcases foldl_min_eq_or (hammingNat d) rest (hammingNat d a) with h | ⟨x, hx, hfx⟩
        · exact ⟨a, by simp, h⟩
        · exact ⟨x, by simp [hx], hfx⟩
      · intro x hx
        obtain ⟨h1, h2⟩ := foldl_min_le (hammingNat d) rest (hammingNat d a)
        rcases List.mem_cons.mp hx with rfl | hx2
        · exact h1
        · exact h2 x hx2
  · intro features anchors0 u f hanchors hu
    have hhashes : anchorHashesOf features anchors0 = [] := by
      unfold anchorHashesOf
      rw [List.filterMap_eq_nil_iff.mpr hanchors]
      rfl
    unfold enrichCandidate
    rw [hhashes, hu]
    rfl
  · norm_num [distScore]

/-- Concrete instantiation of C10: a two-anchor list attains its minimum,
and a fetched candidate with no fetched anchors gets distance 64. -/
theorem minDistanceToAnchors_spec_witness :
    ((∃ a ∈ [(3 : Nat), 9], minDistanceToAnchors 5 [3, 9] = hammingNat 5 a) ∧
      (∀ a ∈ [(3 : Nat), 9], minDistanceToAnchors 5 [3, 9] ≤ hammingNat 5 a)) ∧
    (enrichCandidate (fun _ => some ⟨7, 1 / 2⟩)
      (anchorHashesOf (fun _ => some ⟨7, 1 / 2⟩) [])
      ("https://x.com/a.jpg")).dist = some 64 :=
  ⟨minDistanceToAnchors_spec.2.1 5 [3, 9] (by decide),
    minDistanceToAnchors_spec.2.2.1 (fun _ => some ⟨7, 1 / 2⟩) []
      ("https://x.com/a.jpg") ⟨7, 1 / 2⟩ (by simp) rfl⟩

end Outfnd
